import Mathlib

/-!
Verification of the grilops TypeScript port (a grid-logic-puzzle constraint
encoder) against its specification.

The development shallowly embeds the relevant modules:

* geometry (`Vector`, `Point`, lattices and their transformation functions),
* the sightlines module (`reduceCells`, `countCells`),
* the symbol-set registry (`SymbolSet` construction),
* the expression quadtree (`ExpressionQuadTree`),
* the region constrainer (spanning-forest encoding),
* the path constrainer (instance/order grids),
* the shape constrainer's single-copy cardinality constraints.

Z3 expressions are embedded by their value in a model: an `Arith` cell is an
`Int`, a `Bool` expression is a `Bool`, `If`/`And`/`Or` collapse to their
semantic counterparts.  A constrainer's emitted constraint set is embedded as
a predicate on assignments (models); theorems about "every satisfying model"
quantify over assignments satisfying that predicate.  The one unbounded loop
in the sources (walking a sightline ray) is embedded with explicit fuel; the
grid size is enough fuel whenever the direction vector is nonzero, which is
proved below.
-/

namespace Grilops

/-- Embeds geometry.ts `Vector`: an offset in two dimensions. -/
structure Vector where
  dy : Int
  dx : Int
deriving DecidableEq

/-- Embeds geometry.ts `Vector.negate`. -/
def Vector.negate (v : Vector) : Vector := ⟨-v.dy, -v.dx⟩

/-- Embeds geometry.ts `Vector.translate`. -/
def Vector.translateVec (v w : Vector) : Vector := ⟨v.dy + w.dy, v.dx + w.dx⟩

/-- Embeds geometry.ts `Point`: a cell location. -/
structure Point where
  y : Int
  x : Int
deriving DecidableEq

/-- Embeds geometry.ts `Point.translate` (by a direction's vector). -/
def Point.translate (p : Point) (v : Vector) : Point := ⟨p.y + v.dy, p.x + v.dx⟩

theorem Point.translate_negate (p : Point) (v : Vector) :
    (p.translate v).translate v.negate = p := by
  simp [Point.translate, Vector.negate]

theorem Vector.negate_negate (v : Vector) : v.negate.negate = v := by
  simp [Vector.negate]

theorem Point.translate_injective (p : Point) {v w : Vector}
    (h : p.translate v = p.translate w) : v = w := by
  cases v; cases w
  simp only [Point.translate, Point.mk.injEq] at h
  simp only [Vector.mk.injEq]
  omega

/-! ## Sightlines (src sightlines module: `reduceCells`, `countCells`)

A symbol grid is embedded as an association list from points to the integer
value the cell's symbol variable takes in the model.  `Map.has`/`Map.get`
become lookups in that list.
-/

/-- Lookup of a cell in the symbol grid (`symbolGrid.grid.get(p.toString())`). -/
def lookupGrid (grid : List (Point × Int)) (p : Point) : Option Int :=
  (grid.find? (fun e => e.1 == p)).map (fun e => e.2)

/-- The cells visited by the `while (symbolGrid.grid.has(p))` walk of
`reduceCells`, paired with their points, with explicit fuel bounding the
number of iterations (the source's loop is unbounded; `grid.length` fuel is
shown below to reproduce it exactly for nonzero directions). -/
def rayCells (grid : List (Point × Int)) (start : Point) (direction : Vector) :
    Nat → List (Int × Point)
  | 0 => []
  | fuel + 1 =>
    match lookupGrid grid start with
    | some cell => (cell, start) :: rayCells grid (start.translate direction) direction fuel
    | none => []

/-- The expression-building phase of `reduceCells`: `accTerms` is the scan of
`accumulate` over the ray (starting from `initializer`), `stopTerms` pairs
each visited cell's `stop` value with the accumulator pushed just before it,
and the final expression folds `If(stopTerm, accTerm, expr)` over the two
reversed lists, exactly as in the source. -/
def reduceCellsOnRay {α : Type} (initializer : α) (accumulate : α → Int → Point → α)
    (stop : α → Int → Point → Bool) (ray : List (Int × Point)) : α :=
  let accTerms := List.scanl (fun a cp => accumulate a cp.1 cp.2) initializer ray
  let stopTerms := (accTerms.tail.zip ray).map (fun x => stop x.1 x.2.1 x.2.2)
  let lastAcc := accTerms.getLastD initializer
  (stopTerms.reverse.zip accTerms.dropLast.reverse).foldl
    (fun e sa => if sa.1 then sa.2 else e) lastAcc

/-- Embeds sightlines `reduceCells`.  The while-loop fuel is `grid.length`,
which reproduces the source's unbounded walk for every nonzero direction
(see `rayCells_complete`). -/
def reduceCells {α : Type} (grid : List (Point × Int)) (start : Point)
    (direction : Vector) (initializer : α) (accumulate : α → Int → Point → α)
    (stop : α → Int → Point → Bool) : α :=
  reduceCellsOnRay initializer accumulate stop
    (rayCells grid start direction grid.length)

/-- The default `count` argument of `countCells` (each symbol counts 1). -/
def defaultCount : Int → Int := fun _ => 1

/-- The default `stop` argument of `countCells` (never stop). -/
def defaultStop : Int → Bool := fun _ => false

/-- Embeds sightlines `countCells`. -/
def countCells (grid : List (Point × Int)) (start : Point) (direction : Vector)
    (count : Int → Int) (stop : Int → Bool) : Int :=
  reduceCells grid start direction 0 (fun a c _ => a + count c) (fun _ c _ => stop c)

/-- Specification-style fold for `reduceCells`: walk the ray in onward order;
at the first cell where `stop` fires (evaluated on the accumulator that
includes that cell), return the accumulator from just before that cell;
otherwise return the accumulator after folding the whole ray. -/
def firstStopValue {α : Type} (initializer : α) (accumulate : α → Int → Point → α)
    (stop : α → Int → Point → Bool) : List (Int × Point) → α
  | [] => initializer
  | (c, p) :: rest =>
    let a := accumulate initializer c p
    if stop a c p then initializer else firstStopValue a accumulate stop rest

/-- The 1×4 single-row grid holding symbols [A, A, B, A] (A = 0, B = 1),
from (0,0) eastward. -/
def rowAABA : List (Point × Int) :=
  [(⟨0, 0⟩, 0), (⟨0, 1⟩, 0), (⟨0, 2⟩, 1), (⟨0, 3⟩, 0)]

/-- The east direction of the rectangular lattice. -/
def east : Vector := ⟨0, 1⟩

theorem reduceCellsOnRay_eq_firstStopValue {α : Type} (accumulate : α → Int → Point → α)
    (stop : α → Int → Point → Bool) :
    ∀ (ray : List (Int × Point)) (initializer : α),
      reduceCellsOnRay initializer accumulate stop ray =
        firstStopValue initializer accumulate stop ray := by
  intro ray
  induction ray with
  | nil => intro init; rfl
  | cons cp rest ih =>
    rcases cp with ⟨c, p⟩
    intro init
    set g : α → Int × Point → α := fun a cp => accumulate a cp.1 cp.2 with hg
    set h : α × Int × Point → Bool := fun x => stop x.1 x.2.1 x.2.2 with hh
    set a₁ : α := accumulate init c p with ha₁
    obtain ⟨T, hT⟩ : ∃ T, List.scanl g a₁ rest = a₁ :: T := by
      cases rest with
      | nil => exact ⟨[], rfl⟩
      | cons r rs => exact ⟨_, by rw [List.scanl_cons]; rfl⟩
    have hTlen : T.length = rest.length := by
      have := List.length_scanl (f := g) a₁ rest
      rw [hT] at this
      simp at this
      omega
    have hAcc : List.scanl g init ((c, p) :: rest) = init :: a₁ :: T := by
      rw [List.scanl_cons]
      simp only [List.singleton_append, List.cons.injEq, true_and]
      exact hT
    have hstep :
        reduceCellsOnRay init accumulate stop ((c, p) :: rest) =
          if stop a₁ c p then init
          else reduceCellsOnRay a₁ accumulate stop rest := by
      unfold reduceCellsOnRay
      rw [← hg, ← hh, hAcc, hT]
      simp only [List.tail_cons, List.zip_cons_cons, List.map_cons, List.getLastD_cons,
        List.dropLast_cons₂, List.reverse_cons]
      have hzlen : (((T.zip rest).map h).reverse).length =
          ((a₁ :: T).dropLast.reverse).length := by
        simp [List.length_zip, hTlen]
      rw [List.zip_append hzlen, List.foldl_append]
      simp only [List.zip_cons_cons, List.zip_nil_right, List.foldl_cons, List.foldl_nil]
    rw [hstep]
    show _ = firstStopValue init accumulate stop ((c, p) :: rest)
    unfold firstStopValue
    rw [← ha₁]
    by_cases hs : stop a₁ c p
    · simp [hs]
    · simp only [hs, if_false]
      exact ih a₁

/-- `rayCells` with less fuel is a prefix of `rayCells` with more fuel. -/
theorem rayCells_take (grid : List (Point × Int)) (direction : Vector) :
    ∀ (f₁ f₂ : Nat) (p : Point), f₁ ≤ f₂ →
      rayCells grid p direction f₁ = (rayCells grid p direction f₂).take f₁ := by
  intro f₁
  induction f₁ with
  | zero => intro f₂ p _; rfl
  | succ f ih =>
    intro f₂ p hle
    obtain ⟨f₂', rfl⟩ : ∃ f₂', f₂ = f₂' + 1 := ⟨f₂ - 1, by omega⟩
    unfold rayCells
    cases hfind : lookupGrid grid p with
    | none => simp
    | some cell =>
      simp only [List.take_succ_cons, List.cons.injEq, true_and]
      exact ih f₂' (p.translate direction) (by omega)

theorem rayCells_length_le (grid : List (Point × Int)) (direction : Vector) :
    ∀ (f : Nat) (p : Point), (rayCells grid p direction f).length ≤ f := by
  intro f
  induction f with
  | zero => intro p; simp [rayCells]
  | succ f ih =>
    intro p
    unfold rayCells
    cases lookupGrid grid p with
    | none => simp
    | some cell => simpa using ih (p.translate direction)

/-- The points visited by `rayCells` are `start`, `start + d`, `start + 2d`, … -/
theorem rayCells_map_snd (grid : List (Point × Int)) (direction : Vector) :
    ∀ (f : Nat) (p : Point),
      (rayCells grid p direction f).map (fun e => e.2) =
        (List.range (rayCells grid p direction f).length).map
          (fun k : Nat =>
            Point.mk (p.y + (k : Int) * direction.dy) (p.x + (k : Int) * direction.dx)) := by
  intro f
  induction f with
  | zero => intro p; rfl
  | succ f ih =>
    intro p
    unfold rayCells
    cases lookupGrid grid p with
    | none => rfl
    | some cell =>
      simp only [List.map_cons, List.length_cons, List.range_succ_eq_map, List.map_map,
        List.cons.injEq]
      refine ⟨by simp, ?_⟩
      rw [ih (p.translate direction)]
      apply List.map_congr_left
      intro k _
      simp only [Function.comp_apply, Point.translate, Point.mk.injEq]
      push_cast
      constructor <;> ring

theorem rayCells_mem_grid (grid : List (Point × Int)) (direction : Vector) :
    ∀ (f : Nat) (p : Point) (e : Int × Point), e ∈ rayCells grid p direction f →
      e.2 ∈ grid.map (fun g => g.1) := by
  intro f
  induction f with
  | zero => intro p e he; simp [rayCells] at he
  | succ f ih =>
    intro p e he
    unfold rayCells at he
    cases hfind : lookupGrid grid p with
    | none => rw [hfind] at he; simp at he
    | some cell =>
      rw [hfind] at he
      rcases List.mem_cons.mp he with rfl | hmem
      · unfold lookupGrid at hfind
        cases hf : grid.find? (fun e => e.1 == p) with
        | none => rw [hf] at hfind; simp at hfind
        | some g =>
          have hg := List.find?_some hf
          have hgm := List.mem_of_find?_eq_some hf
          simp only [beq_iff_eq] at hg
          simpa [hg] using List.mem_map_of_mem (fun g => g.1) hgm
      · exact ih (p.translate direction) e hmem

/-- For a nonzero direction the visited points are pairwise distinct, so the
walk cannot run longer than the number of grid cells: `grid.length` fuel
reproduces the source's unbounded while loop. -/
theorem rayCells_complete (grid : List (Point × Int)) (start : Point)
    (direction : Vector) (hd : direction ≠ ⟨0, 0⟩) :
    ∀ fuel : Nat, grid.length ≤ fuel →
      rayCells grid start direction fuel = rayCells grid start direction grid.length := by
  have hlen : ∀ fuel : Nat, (rayCells grid start direction fuel).length ≤ grid.length := by
    intro fuel
    set ray := rayCells grid start direction fuel with hray
    have hmap := rayCells_map_snd grid direction fuel start
    have hnd : (ray.map (fun e => e.2)).Nodup := by
      rw [← hray] at hmap
      rw [hmap]
      apply List.Nodup.map
      · intro k j hkj
        simp only [Point.mk.injEq] at hkj
        have hy : (k : Int) * direction.dy = j * direction.dy := by omega
        have hx : (k : Int) * direction.dx = j * direction.dx := by omega
        have : direction.dy ≠ 0 ∨ direction.dx ≠ 0 := by
          by_contra hcon
          push_neg at hcon
          exact hd (by cases direction; simp_all)
        rcases this with h0 | h0
        · exact_mod_cast mul_right_cancel₀ h0 hy
        · exact_mod_cast mul_right_cancel₀ h0 hx
      · exact List.nodup_range _
    have hsub : (ray.map (fun e => e.2)) ⊆ grid.map (fun g => g.1) := by
      intro q hq
      rcases List.mem_map.mp hq with ⟨e, he, rfl⟩
      exact rayCells_mem_grid grid direction fuel start e (hray ▸ he)
    have h1 : (ray.map (fun e => e.2)).toFinset.card = (ray.map (fun e => e.2)).length :=
      List.toFinset_card_of_nodup hnd
    have h2 : (ray.map (fun e => e.2)).toFinset ⊆ (grid.map (fun g => g.1)).toFinset := by
      intro a ha
      simp only [List.mem_toFinset] at *
      exact hsub ha
    have h3 := Finset.card_le_card h2
    have h4 := (grid.map (fun g => g.1)).toFinset_card_le
    simp only [List.length_map] at h1 h4 ⊢
    omega
  intro fuel hfuel
  rw [rayCells_take grid direction grid.length fuel start hfuel]
  exact (List.take_of_length_le (hlen fuel)).symm

/-- C7: `reduceCells` is equivalent to the first-stop fold: it returns the
accumulated value from just before the first cell (in onward ray order) at
which the stop predicate fires, or the final accumulated value if it never
fires; and for a nonzero direction `grid.length` fuel makes `rayCells` the
complete ray up to the lattice edge (more fuel changes nothing). -/
theorem reduceCells_eq_firstStopValue {α : Type} (grid : List (Point × Int))
    (start : Point) (direction : Vector) (initializer : α)
    (accumulate : α → Int → Point → α) (stop : α → Int → Point → Bool) :
    reduceCells grid start direction initializer accumulate stop =
      firstStopValue initializer accumulate stop
        (rayCells grid start direction grid.length) ∧
    (direction ≠ ⟨0, 0⟩ → ∀ fuel : Nat, grid.length ≤ fuel →
      rayCells grid start direction fuel = rayCells grid start direction grid.length) := by
  constructor
  · exact reduceCellsOnRay_eq_firstStopValue accumulate stop _ initializer
  · intro hd fuel hfuel
    exact rayCells_complete grid start direction hd fuel hfuel

/-- Witness for C7 at a concrete grid, direction and fold. -/
theorem reduceCells_eq_firstStopValue_witness :
    reduceCells rowAABA ⟨0, 0⟩ east (0 : Int) (fun a c _ => a + c) (fun _ c _ => c == 1) =
      firstStopValue (0 : Int) (fun a c _ => a + c) (fun _ c _ => c == 1)
        (rayCells rowAABA ⟨0, 0⟩ east rowAABA.length) ∧
    rayCells rowAABA ⟨0, 0⟩ east 7 = rayCells rowAABA ⟨0, 0⟩ east rowAABA.length := by
  refine ⟨(reduceCells_eq_firstStopValue rowAABA ⟨0, 0⟩ east 0 _ _).1, ?_⟩
  exact (reduceCells_eq_firstStopValue rowAABA ⟨0, 0⟩ east (0 : Int)
    (fun a c _ => a + c) (fun _ c _ => c == 1)).2 (by decide) 7 (by decide)

/-- C2: on the 1-row, 4-cell grid holding [A,A,B,A] eastward from (0,0),
`countCells` with the default count and default stop evaluates to 4, and with
stop = "symbol equals B" it evaluates to 2 (the B cell's contribution is not
added). -/
theorem countCells_rowAABA :
    countCells rowAABA ⟨0, 0⟩ east defaultCount defaultStop = 4 ∧
      countCells rowAABA ⟨0, 0⟩ east defaultCount (fun c => c == 1) = 2 := by
  constructor <;> rfl

/-! ## Lattice transformation functions (geometry.ts)

The hexagonal transformations divide by 2; in the source this is real
division, exact on the doubled coordinate scheme (dy + dx is always even for
lattice vectors), so integer division embeds it faithfully there — and the
concrete vectors used in the theorems below all have even coordinate sums.
-/

/-- Embeds `RectangularLattice.transformationFunctions`. -/
def rectangularTransformationFunctions (allowRotations allowReflections : Bool) :
    List (Vector → Vector) :=
  if allowRotations then
    if allowReflections then
      [fun v => v,
       fun v => ⟨v.dy, -v.dx⟩,
       fun v => ⟨-v.dy, v.dx⟩,
       fun v => ⟨-v.dy, -v.dx⟩,
       fun v => ⟨v.dx, v.dy⟩,
       fun v => ⟨v.dx, -v.dy⟩,
       fun v => ⟨-v.dx, v.dy⟩,
       fun v => ⟨-v.dx, -v.dy⟩]
    else
      [fun v => v,
       fun v => ⟨v.dx, -v.dy⟩,
       fun v => ⟨-v.dy, -v.dx⟩,
       fun v => ⟨-v.dx, v.dy⟩]
  else
    if allowReflections then
      [fun v => v,
       fun v => ⟨v.dy, -v.dx⟩,
       fun v => ⟨-v.dy, v.dx⟩]
    else
      [fun v => v]

/-- Embeds `FlatToppedHexagonalLattice.transformationFunctions`. -/
def flatToppedTransformationFunctions (allowRotations allowReflections : Bool) :
    List (Vector → Vector) :=
  if allowRotations then
    if allowReflections then
      [fun v => v,
       fun v => ⟨(v.dy + 3 * v.dx) / 2, (-v.dy + v.dx) / 2⟩,
       fun v => ⟨(-v.dy + 3 * v.dx) / 2, (-v.dy - v.dx) / 2⟩,
       fun v => ⟨-v.dy, -v.dx⟩,
       fun v => ⟨(-v.dy - 3 * v.dx) / 2, (v.dy - v.dx) / 2⟩,
       fun v => ⟨(v.dy - 3 * v.dx) / 2, (v.dy + v.dx) / 2⟩,
       fun v => ⟨-v.dy, v.dx⟩,
       fun v => ⟨(-v.dy - 3 * v.dx) / 2, (-v.dy + v.dx) / 2⟩,
       fun v => ⟨(v.dy - 3 * v.dx) / 2, (-v.dy - v.dx) / 2⟩,
       fun v => ⟨v.dy, -v.dx⟩,
       fun v => ⟨(v.dy + 3 * v.dx) / 2, (v.dy - v.dx) / 2⟩,
       fun v => ⟨(-v.dy + 3 * v.dx) / 2, (v.dy + v.dx) / 2⟩]
    else
      [fun v => v,
       fun v => ⟨(v.dy + 3 * v.dx) / 2, (-v.dy + v.dx) / 2⟩,
       fun v => ⟨(-v.dy + 3 * v.dx) / 2, (-v.dy - v.dx) / 2⟩,
       fun v => ⟨-v.dy, -v.dx⟩,
       fun v => ⟨(-v.dy - 3 * v.dx) / 2, (v.dy - v.dx) / 2⟩,
       fun v => ⟨(v.dy - 3 * v.dx) / 2, (v.dy + v.dx) / 2⟩]
  else
    if allowReflections then
      [fun v => v,
       fun v => ⟨-v.dy, v.dx⟩,
       fun v => ⟨(-v.dy - 3 * v.dx) / 2, (-v.dy + v.dx) / 2⟩,
       fun v => ⟨(v.dy - 3 * v.dx) / 2, (-v.dy - v.dx) / 2⟩,
       fun v => ⟨v.dy, -v.dx⟩,
       fun v => ⟨(v.dy + 3 * v.dx) / 2, (v.dy - v.dx) / 2⟩,
       fun v => ⟨(-v.dy + 3 * v.dx) / 2, (v.dy + v.dx) / 2⟩]
    else
      [fun v => v]

/-- Embeds `PointyToppedHexagonalLattice.transformationFunctions`.  Note the
rotations-disallowed, reflections-allowed branch: unlike the flat-topped
lattice, its list does not begin with `fun v => v`. -/
def pointyToppedTransformationFunctions (allowRotations allowReflections : Bool) :
    List (Vector → Vector) :=
  if allowRotations then
    if allowReflections then
      [fun v => v,
       fun v => ⟨(v.dy + v.dx) / 2, (-3 * v.dy + v.dx) / 2⟩,
       fun v => ⟨(-v.dy + v.dx) / 2, (-3 * v.dy - v.dx) / 2⟩,
       fun v => ⟨-v.dy, -v.dx⟩,
       fun v => ⟨(-v.dy - v.dx) / 2, (3 * v.dy - v.dx) / 2⟩,
       fun v => ⟨(v.dy - v.dx) / 2, (3 * v.dy + v.dx) / 2⟩,
       fun v => ⟨-v.dy, v.dx⟩,
       fun v => ⟨(-v.dy - v.dx) / 2, (-3 * v.dy + v.dx) / 2⟩,
       fun v => ⟨(v.dy - v.dx) / 2, (-3 * v.dy - v.dx) / 2⟩,
       fun v => ⟨v.dy, -v.dx⟩,
       fun v => ⟨(v.dy + v.dx) / 2, (3 * v.dy - v.dx) / 2⟩,
       fun v => ⟨(-v.dy + v.dx) / 2, (3 * v.dy + v.dx) / 2⟩]
    else
      [fun v => v,
       fun v => ⟨(v.dy + v.dx) / 2, (-3 * v.dy + v.dx) / 2⟩,
       fun v => ⟨(-v.dy + v.dx) / 2, (-3 * v.dy - v.dx) / 2⟩,
       fun v => ⟨-v.dy, -v.dx⟩,
       fun v => ⟨(-v.dy - v.dx) / 2, (3 * v.dy - v.dx) / 2⟩,
       fun v => ⟨(v.dy - v.dx) / 2, (3 * v.dy + v.dx) / 2⟩]
  else
    if allowReflections then
      [fun v => ⟨-v.dy, v.dx⟩,
       fun v => ⟨(-v.dy - v.dx) / 2, (-3 * v.dy + v.dx) / 2⟩,
       fun v => ⟨(v.dy - v.dx) / 2, (-3 * v.dy - v.dx) / 2⟩,
       fun v => ⟨v.dy, -v.dx⟩,
       fun v => ⟨(v.dy + v.dx) / 2, (3 * v.dy - v.dx) / 2⟩,
       fun v => ⟨(-v.dy + v.dx) / 2, (3 * v.dy + v.dx) / 2⟩]
    else
      [fun v => v]

/-- C5: evaluating the code at the failing input.  Every function in
`PointyToppedHexagonalLattice.transformationFunctions(false, true)` moves the
lattice vector (0,2) or the lattice vector (1,1), so none of them is the
identity transformation — contradicting the base-class documentation ("The
returned list always contains at least one transformation: the identity
function") and the flat-topped analogue. -/
theorem pointyTopped_reflections_lack_identity :
    ∀ i : Fin (pointyToppedTransformationFunctions false true).length,
      (pointyToppedTransformationFunctions false true).get i ⟨0, 2⟩ ≠ ⟨0, 2⟩ ∨
        (pointyToppedTransformationFunctions false true).get i ⟨1, 1⟩ ≠ ⟨1, 1⟩ := by
  decide

/-! ## Rectangular-region closure constraints (regions.ts `_addRectangularConstraints`) -/

/-- Embeds the generator-based `combinations` utility (utils.ts), in the
source's emission order. -/
def combinations {α : Type} : List α → Nat → List (List α)
  | _, 0 => [[]]
  | [], _ + 1 => []
  | c :: cs, n + 1 =>
    ((combinations cs n).map (fun rest => c :: rest)) ++ combinations cs (n + 1)

/-- The locations of `lattice.edgeSharingNeighbors(grid, p)`: translates of
`p` by each edge-sharing direction that lie in the lattice. -/
def edgeSharingNeighborPoints (points : List Point) (dirs : List Vector) (p : Point) :
    List Point :=
  (dirs.map (fun d => p.translate d)).filter (fun q => points.contains q)

/-- The point set over which `_addRectangularConstraints` emits its closure
implication for the pair (n1, n2) of neighbors of `p`: the source builds
`new Set([...n1Neighbors, ...n2Neighbors])` — the UNION of the two
neighborhoods — and removes `p`.  (The `Set` only collapses duplicates,
which affects neither membership nor the conjunction built from it.) -/
def rectangularCommonPoints (points : List Point) (dirs : List Vector)
    (p n1 n2 : Point) : List Point :=
  ((edgeSharingNeighborPoints points dirs n1 ++
      edgeSharingNeighborPoints points dirs n2).filter (fun q => q ≠ p))

/-- The edge-sharing directions of `RectangularLattice`: N, S, E, W. -/
def rectDirs : List Vector := [⟨-1, 0⟩, ⟨1, 0⟩, ⟨0, 1⟩, ⟨0, -1⟩]

/-- The complete 3×3 rectangular lattice, in sorted point order. -/
def rect3Points : List Point :=
  [⟨0, 0⟩, ⟨0, 1⟩, ⟨0, 2⟩, ⟨1, 0⟩, ⟨1, 1⟩, ⟨1, 2⟩, ⟨2, 0⟩, ⟨2, 1⟩, ⟨2, 2⟩]

/-- C4: evaluating the code at the failing input.  On the 3×3 rectangular
lattice, for cell p = (1,1) and its neighbor pair n1 = (0,1), n2 = (1,0)
(a pair emitted by `combinations(neighbors, 2)`), the point set the emitted
implication quantifies over contains (0,2) — a cell that is not edge-adjacent
to n2 at all, hence not "adjacent to both n1 and n2" as the specification
requires; the code constrains the union of the two neighborhoods instead of
their intersection. -/
theorem rectangularConstraints_use_union :
    [(⟨0, 1⟩ : Point), ⟨1, 0⟩] ∈
        combinations (edgeSharingNeighborPoints rect3Points rectDirs ⟨1, 1⟩) 2 ∧
      (⟨0, 2⟩ : Point) ∈ rectangularCommonPoints rect3Points rectDirs ⟨1, 1⟩ ⟨0, 1⟩ ⟨1, 0⟩ ∧
      (⟨0, 2⟩ : Point) ∉ edgeSharingNeighborPoints rect3Points rectDirs ⟨1, 0⟩ := by
  decide

/-! ## Shape constrainer: single-copy cardinality constraints (shapes.ts) -/

/-- Semantics of the solver shim's `PbEq`: the weighted count of satisfied
boolean terms equals the target. -/
def pbEqHolds (sumTerms : List (Bool × Int)) (k : Int) : Prop :=
  (sumTerms.map (fun t => if t.1 then t.2 else 0)).sum = k

/-- The constraint emitted by `_addSingleCopyConstraints(shapeIndex, shape)`
under a model of the `shapeType` grid: one weight-1 term `shapeType == i`
per cell, with target `shape.offsetsWithPayloads.length`. -/
def singleCopyConstraint (points : List Point) (shapeType : Point → Int)
    (shapeIndex : Nat) (shape : List Vector) : Prop :=
  pbEqHolds (points.map (fun p => (shapeType p == (shapeIndex : Int), (1 : Int))))
    (shape.length)

/-- All single-copy constraints, as emitted by `_addConstraints` for each
index of the shapes list when `allowCopies` is false. -/
def addSingleCopyConstraints (points : List Point) (shapes : List (List Vector))
    (shapeType : Point → Int) : Prop :=
  ∀ i, i < shapes.length →
    singleCopyConstraint points shapeType i (shapes.getD i [])

/-- The cardinality constraints described by the claim's words: the count of
cells of shape index i equals (cell count of shape i) × (number of times that
shape appears in the input list). -/
def claimSingleCopyConstraints (points : List Point) (shapes : List (List Vector))
    (shapeType : Point → Int) : Prop :=
  ∀ i, i < shapes.length →
    pbEqHolds (points.map (fun p => (shapeType p == (i : Int), (1 : Int))))
      ((shapes.getD i []).length * shapes.count (shapes.getD i []))

/-- The 2×2 rectangular lattice. -/
def rect2Points : List Point := [⟨0, 0⟩, ⟨0, 1⟩, ⟨1, 0⟩, ⟨1, 1⟩]

/-- A horizontal domino shape (2 cells). -/
def domino : List Vector := [⟨0, 0⟩, ⟨0, 1⟩]

/-- A `shapeType` assignment placing one domino (index 0) on row 0 and one
domino (index 1) on row 1 of the 2×2 lattice. -/
def twoDominoShapeType : Point → Int := fun p => if p.y = 0 then 0 else 1

/-- C6 counterexample: with the shape list [domino, domino] (the same
two-cell shape listed twice) on the 2×2 lattice, the constraints the code
emits are satisfied by the two-placement model — each index i has exactly 2
cells, the shape's cell count — while the claim's description demands
2 × 2 = 4 cells per index, which that model violates.  The emitted
pseudo-boolean target is the shape's cell count alone, not multiplied by the
number of occurrences in the input list. -/
theorem singleCopy_claim_counterexample :
    addSingleCopyConstraints rect2Points [domino, domino] twoDominoShapeType ∧
      ¬ claimSingleCopyConstraints rect2Points [domino, domino] twoDominoShapeType := by
  constructor
  · unfold addSingleCopyConstraints singleCopyConstraint pbEqHolds
    decide
  · unfold claimSingleCopyConstraints pbEqHolds
    decide

theorem sum_boolWeights_eq_countP (l : List Point) (f : Point → Bool) :
    ((l.map (fun p => ((f p : Bool), (1 : Int)))).map
        (fun t => if t.1 then t.2 else 0)).sum = (l.countP f : Int) := by
  induction l with
  | nil => rfl
  | cons a l ih =>
    simp only [List.map_cons, List.sum_cons, List.countP_cons, ih]
    by_cases hfa : f a
    · simp only [hfa, if_true]
      push_cast
      ring
    · simp [hfa]

/-- C6 (amended): when `allowCopies` is false, the emitted single-copy
constraints hold in a model exactly when, for every index i of the input
shape list, the number of cells whose shapeType equals i is the cell count of
the i-th shape — one instance's worth of cells per listed occurrence (each
occurrence carries its own catalogue index), with no multiplication by the
number of occurrences. -/
theorem addSingleCopyConstraints_iff_cellCount (points : List Point)
    (shapes : List (List Vector)) (shapeType : Point → Int) :
    addSingleCopyConstraints points shapes shapeType ↔
      ∀ i, i < shapes.length →
        (points.countP (fun p => shapeType p == (i : Int)) : Int) =
          ((shapes.getD i []).length : Int) := by
  unfold addSingleCopyConstraints singleCopyConstraint pbEqHolds
  constructor
  · intro hc i h
    have := hc i h
    rwa [sum_boolWeights_eq_countP] at this
  · intro hc i h
    rw [sum_boolWeights_eq_countP]
    exact hc i h

/-! ## SymbolSet construction (symbols.ts)

The constructor's `_indexToSymbol` insertion-ordered map is embedded as a
list of symbols; inserting a key that is not yet present appends (the
only inserts that happen, since a duplicate explicit index throws first and
`_nextUnusedIndex` always exceeds every present key). -/

/-- A symbol specification, as accepted by the `SymbolSet` constructor: a
name, a (name, label) tuple, or a (name, label, index) tuple. -/
inductive SymbolSpec where
  | nameOnly (n : String)
  | pairSpec (n lbl : String)
  | tripleSpec (n lbl : String) (index : Int)
deriving DecidableEq

/-- Embeds symbols.ts `Symbol` (index, name, optional label). -/
structure Symbol where
  index : Int
  name : String
  label : Option String
deriving DecidableEq

/-- `Math.max(...keys)` over a nonempty key list. -/
def maxKey (keys : List Int) : Int := keys.foldl max (keys.headD 0)

/-- Embeds `SymbolSet._nextUnusedIndex`. -/
def nextUnusedIndex (m : List Symbol) : Int :=
  if m.isEmpty then 0 else maxKey (m.map (fun s => s.index)) + 1

/-- One step of the `SymbolSet` constructor loop over specifications. -/
def processSpec (m : List Symbol) : SymbolSpec → Except String (List Symbol)
  | .nameOnly n => .ok (m ++ [⟨nextUnusedIndex m, n, none⟩])
  | .pairSpec n lbl => .ok (m ++ [⟨nextUnusedIndex m, n, some lbl⟩])
  | .tripleSpec n lbl i =>
    if (m.map (fun s => s.index)).contains i then
      .error "Index already used"
    else
      .ok (m ++ [⟨i, n, some lbl⟩])

/-- Embeds the `SymbolSet` constructor: fold the specifications, throwing on
a duplicate explicit index. -/
def buildSymbolSet (specs : List SymbolSpec) : Except String (List Symbol) :=
  specs.foldlM processSpec []

theorem foldl_max_le (l : List Int) :
    ∀ a : Int, a ≤ l.foldl max a ∧ ∀ x ∈ l, x ≤ l.foldl max a := by
  induction l with
  | nil => intro a; simp
  | cons b l ih =>
    intro a
    simp only [List.foldl_cons, List.mem_cons]
    refine ⟨le_trans (le_max_left a b) (ih (max a b)).1, ?_⟩
    rintro x (rfl | hx)
    · exact le_trans (le_max_right a x) (ih (max a x)).1
    · exact (ih (max a b)).2 x hx

theorem index_lt_nextUnusedIndex (m : List Symbol) (s : Symbol) (hs : s ∈ m) :
    s.index < nextUnusedIndex m := by
  unfold nextUnusedIndex
  have hne : ¬ m.isEmpty := by
    cases m with
    | nil => cases hs
    | cons a l => simp
  rw [if_neg hne]
  have hmem : s.index ∈ m.map (fun s => s.index) := List.mem_map_of_mem _ hs
  have := (foldl_max_le (m.map (fun s => s.index))
    ((m.map (fun s => s.index)).headD 0)).2 s.index hmem
  unfold maxKey
  omega

theorem buildSymbolSet_nodup_from :
    ∀ (specs : List SymbolSpec) (m₀ : List Symbol),
      (m₀.map (fun s => s.index)).Nodup →
      ∀ m, List.foldlM processSpec m₀ specs = .ok m →
        (m.map (fun s => s.index)).Nodup := by
  intro specs
  induction specs with
  | nil =>
    intro m₀ h₀ m hm
    simp only [List.foldlM_nil] at hm
    cases hm
    exact h₀
  | cons x specs ih =>
    intro m₀ h₀ m hm
    rw [List.foldlM_cons] at hm
    cases hx : processSpec m₀ x with
    | error e => rw [hx] at hm; cases hm
    | ok m₁ =>
      rw [hx] at hm
      refine ih m₁ ?_ m hm
      cases x with
      | nameOnly n =>
        simp only [processSpec, Except.ok.injEq] at hx
        subst hx
        simp only [List.map_append, List.map_cons, List.map_nil]
        rw [List.nodup_append]
        refine ⟨h₀, List.nodup_singleton _, ?_⟩
        intro a ha hb
        simp only [List.mem_singleton] at hb
        subst hb
        rcases List.mem_map.mp ha with ⟨s, hs, hsa⟩
        have := index_lt_nextUnusedIndex m₀ s hs
        omega
      | pairSpec n lbl =>
        simp only [processSpec, Except.ok.injEq] at hx
        subst hx
        simp only [List.map_append, List.map_cons, List.map_nil]
        rw [List.nodup_append]
        refine ⟨h₀, List.nodup_singleton _, ?_⟩
        intro a ha hb
        simp only [List.mem_singleton] at hb
        subst hb
        rcases List.mem_map.mp ha with ⟨s, hs, hsa⟩
        have := index_lt_nextUnusedIndex m₀ s hs
        omega
      | tripleSpec n lbl i =>
        simp only [processSpec] at hx
        by_cases hc : (m₀.map (fun s => s.index)).contains i
        · rw [if_pos hc] at hx; cases hx
        · rw [if_neg hc] at hx
          cases hx
          simp only [List.map_append, List.map_cons, List.map_nil]
          rw [List.nodup_append]
          refine ⟨h₀, List.nodup_singleton _, ?_⟩
          intro a ha hb
          simp only [List.mem_singleton] at hb
          subst hb
          exact hc (List.elem_eq_true_of_mem ha)

/-- C9: `SymbolSet` construction (i) throws when a three-element
specification reuses an index already assigned to an earlier symbol, (ii) on
success yields pairwise-distinct symbol indices, and (iii, iv) assigns each
specification without an explicit index one plus the maximum index used so
far (0 for the first symbol). -/
theorem symbolSet_construction (specs : List SymbolSpec) :
    (∀ m n lbl i rest, buildSymbolSet specs = .ok m →
        i ∈ m.map (fun s => s.index) →
        ∃ e, buildSymbolSet (specs ++ SymbolSpec.tripleSpec n lbl i :: rest) =
          .error e) ∧
    (∀ m, buildSymbolSet specs = .ok m → (m.map (fun s => s.index)).Nodup) ∧
    (∀ m n, buildSymbolSet specs = .ok m →
        buildSymbolSet (specs ++ [SymbolSpec.nameOnly n]) =
          .ok (m ++ [⟨if m.isEmpty then 0 else maxKey (m.map (fun s => s.index)) + 1,
            n, none⟩])) ∧
    (∀ m n lbl, buildSymbolSet specs = .ok m →
        buildSymbolSet (specs ++ [SymbolSpec.pairSpec n lbl]) =
          .ok (m ++ [⟨if m.isEmpty then 0 else maxKey (m.map (fun s => s.index)) + 1,
            n, some lbl⟩])) := by
  refine ⟨?_, ?_, ?_, ?_⟩
  · intro m n lbl i rest hok hi
    refine ⟨"Index already used", ?_⟩
    unfold buildSymbolSet at hok ⊢
    rw [List.foldlM_append, hok]
    show List.foldlM processSpec m (SymbolSpec.tripleSpec n lbl i :: rest) = _
    rw [List.foldlM_cons]
    have hc : (m.map (fun s => s.index)).contains i = true :=
      List.elem_eq_true_of_mem (by simpa using hi)
    simp only [processSpec, hc, if_pos]
    rfl
  · intro m hok
    exact buildSymbolSet_nodup_from specs [] (by simp) m hok
  · intro m n hok
    unfold buildSymbolSet at hok ⊢
    rw [List.foldlM_append, hok]
    show List.foldlM processSpec m [SymbolSpec.nameOnly n] = _
    rw [List.foldlM_cons]
    simp [processSpec, nextUnusedIndex, List.foldlM_nil]
  · intro m n lbl hok
    unfold buildSymbolSet at hok ⊢
    rw [List.foldlM_append, hok]
    show List.foldlM processSpec m [SymbolSpec.pairSpec n lbl] = _
    rw [List.foldlM_cons]
    simp [processSpec, nextUnusedIndex, List.foldlM_nil]

/-- Witness for C9 at concrete specification lists. -/
theorem symbolSet_construction_witness :
    (∃ e, buildSymbolSet [SymbolSpec.nameOnly "a", SymbolSpec.tripleSpec "b" "b" 0] =
        .error e) ∧
    (([(⟨0, "a", none⟩ : Symbol)].map (fun s => s.index)).Nodup) ∧
    buildSymbolSet [SymbolSpec.nameOnly "a", SymbolSpec.nameOnly "c"] =
      .ok [⟨0, "a", none⟩, ⟨1, "c", none⟩] := by
  have h0 : buildSymbolSet [SymbolSpec.nameOnly "a"] = .ok [⟨0, "a", none⟩] := rfl
  refine ⟨?_, ?_, ?_⟩
  · exact (symbolSet_construction [SymbolSpec.nameOnly "a"]).1
      [⟨0, "a", none⟩] "b" "b" 0 [] h0 (by decide)
  · exact (symbolSet_construction [SymbolSpec.nameOnly "a"]).2.1 [⟨0, "a", none⟩] h0
  · have h1 := (symbolSet_construction [SymbolSpec.nameOnly "a"]).2.2.1
      [⟨0, "a", none⟩] "c" h0
    exact h1.trans (by rfl)

/-! ## Expression quadtree (utils/quadTree.ts)

The tree caches z3 boolean expressions; in a model every cached expression
has a truth value, so the per-point expression constructor is embedded as a
valuation `f : Point → Bool`, `And(...)` as the conjunction of a Bool list
(`true` for the empty conjunction, as in z3), and the memoization maps are
dropped (they only affect sharing, not the value).  The node midpoints
`(min+max)/2.0` are exact half-integers in the source; the comparison
`coord < (min+max)/2` of an integer coordinate against them is embedded as
`2*coord < min+max`, which is equivalent over the reals.  The constructor's
unbounded recursion is embedded with fuel; running out of fuel (which the
source answers by not terminating, and which cannot happen for duplicate-free
point lists) is a distinct error from the empty-points throw. -/

/-- The node shape of `ExpressionQuadTree`: a single-point leaf, or an
internal node with its bounding box and up to four quadrant children
(`_tl`, `_tr`, `_bl`, `_br`). -/
inductive QTree where
  | leaf (p : Point)
  | node (yMin yMax xMin xMax : Int) (tl tr bl br : Option QTree)

/-- `Math.min(...)` over a nonempty integer list. -/
def listMinInt (l : List Int) : Int := l.foldl min (l.headD 0)

/-- `Math.max(...)` over a nonempty integer list. -/
def listMaxInt (l : List Int) : Int := l.foldl max (l.headD 0)

/-- The bounds test of `coversPoint` on an internal node. -/
def nodeCovers (yMin yMax xMin xMax : Int) (p : Point) : Bool :=
  decide (yMin ≤ p.y) && decide (p.y ≤ yMax) &&
    decide (xMin ≤ p.x) && decide (p.x ≤ xMax)

/-- Embeds `ExpressionQuadTree.coversPoint`. -/
def coversPoint : QTree → Point → Bool
  | .leaf q, p => q == p
  | .node yMin yMax xMin xMax _ _ _ _, p => nodeCovers yMin yMax xMin xMax p

/-- Embeds the `ExpressionQuadTree` constructor.  An empty point list throws;
a single point makes a leaf; otherwise the points are split into the four
quadrants by the midpoints of the bounding box and nonempty quadrants are
built recursively. -/
def buildQuadTree : List Point → Nat → Except String QTree
  | _, 0 => .error "quadtree construction did not terminate"
  | pts, fuel + 1 =>
    if pts.isEmpty then
      .error "A quadtree node must be constructed with at least one point"
    else if pts.length = 1 then
      .ok (.leaf (pts.headD ⟨0, 0⟩))
    else
      let yMin := listMinInt (pts.map (fun p => p.y))
      let yMax := listMaxInt (pts.map (fun p => p.y))
      let xMin := listMinInt (pts.map (fun p => p.x))
      let xMax := listMaxInt (pts.map (fun p => p.x))
      let build1 : List Point → Except String (Option QTree) := fun quadPoints =>
        if quadPoints.isEmpty then .ok none
        else (buildQuadTree quadPoints fuel).map some
      do
        let tl ← build1 (pts.filter
          (fun p => decide (2 * p.y < yMin + yMax) && decide (2 * p.x < xMin + xMax)))
        let tr ← build1 (pts.filter
          (fun p => decide (2 * p.y < yMin + yMax) && decide (2 * p.x ≥ xMin + xMax)))
        let bl ← build1 (pts.filter
          (fun p => decide (2 * p.y ≥ yMin + yMax) && decide (2 * p.x < xMin + xMax)))
        let br ← build1 (pts.filter
          (fun p => decide (2 * p.y ≥ yMin + yMax) && decide (2 * p.x ≥ xMin + xMax)))
        .ok (.node yMin yMax xMin xMax tl tr bl br)

/-- The points covered by a tree, in `_quads` order (tl, tr, bl, br). -/
def treePoints : QTree → List Point
  | .leaf p => [p]
  | .node _ _ _ _ tl tr bl br =>
    (match tl with | some t => treePoints t | none => []) ++
    (match tr with | some t => treePoints t | none => []) ++
    (match bl with | some t => treePoints t | none => []) ++
    (match br with | some t => treePoints t | none => [])

/-- Embeds `ExpressionQuadTree.getExprs` (values of the per-point expression
for all points under a node, in `_quads` order). -/
def getExprs (f : Point → Bool) : QTree → List Bool
  | .leaf p => [f p]
  | .node _ _ _ _ tl tr bl br =>
    (match tl with | some t => getExprs f t | none => []) ++
    (match tr with | some t => getExprs f t | none => []) ++
    (match bl with | some t => getExprs f t | none => []) ++
    (match br with | some t => getExprs f t | none => [])

/-- Embeds `ExpressionQuadTree.getPointExpr`.  The source tests the four
quadrant guards (`child exists && coordinate conditions`) in sequence and
throws if none matches; as the coordinate conditions are mutually exclusive
and exhaustive, this equals selecting the quadrant by coordinates and
erroring when that child is absent. -/
def getPointExpr (f : Point → Bool) : QTree → Point → Except String Bool
  | .leaf q, p =>
    if q == p then .ok (f q) else .error "Point not in QuadTree"
  | .node yMin yMax xMin xMax tl tr bl br, p =>
    if 2 * p.y < yMin + yMax then
      if 2 * p.x < xMin + xMax then
        match tl with
        | some t => getPointExpr f t p
        | none => .error "Point not in QuadTree"
      else
        match tr with
        | some t => getPointExpr f t p
        | none => .error "Point not in QuadTree"
    else
      if 2 * p.x < xMin + xMax then
        match bl with
        | some t => getPointExpr f t p
        | none => .error "Point not in QuadTree"
      else
        match br with
        | some t => getPointExpr f t p
        | none => .error "Point not in QuadTree"

/-- Embeds `ExpressionQuadTree.getOtherPointsExpr`: on a leaf, `undefined`
(`none`) if the leaf's point is excluded, else its expression; on a node, if
no excluded point is inside the node's bounds, the conjunction over all its
points, otherwise the conjunction of the recursive results of the existing
quadrants (dropping `undefined` results), with `And()` of nothing being
`true`. -/
def getOtherPointsExpr (f : Point → Bool) : QTree → List Point → Option Bool
  | .leaf q, points =>
    if points.any (fun p => q == p) then none else some (f q)
  | .node yMin yMax xMin xMax tl tr bl br, points =>
    let coveredPoints := points.filter (fun p => nodeCovers yMin yMax xMin xMax p)
    if coveredPoints.isEmpty then
      some ((getExprs f (.node yMin yMax xMin xMax tl tr bl br)).all id)
    else
      let rs :=
        (match tl with | some t => [getOtherPointsExpr f t coveredPoints] | none => []) ++
        (match tr with | some t => [getOtherPointsExpr f t coveredPoints] | none => []) ++
        (match bl with | some t => [getOtherPointsExpr f t coveredPoints] | none => []) ++
        (match br with | some t => [getOtherPointsExpr f t coveredPoints] | none => [])
      some ((rs.filterMap id).all id)


theorem foldl_min_le_mem (l : List Int) :
    ∀ a : Int, l.foldl min a ≤ a ∧ ∀ x ∈ l, l.foldl min a ≤ x := by
  induction l with
  | nil => intro a; simp
  | cons b l ih =>
    intro a
    simp only [List.foldl_cons, List.mem_cons]
    refine ⟨le_trans (ih (min a b)).1 (min_le_left a b), ?_⟩
    rintro x (rfl | hx)
    · exact le_trans (ih (min a x)).1 (min_le_right a x)
    · exact (ih (min a b)).2 x hx

theorem listMinInt_le (l : List Int) (x : Int) (hx : x ∈ l) : listMinInt l ≤ x :=
  (foldl_min_le_mem l (l.headD 0)).2 x hx

theorem le_listMaxInt (l : List Int) (x : Int) (hx : x ∈ l) : x ≤ listMaxInt l :=
  (foldl_max_le l (l.headD 0)).2 x hx

theorem count_filter_of_neg {p : Point → Bool} {a : Point} {l : List Point}
    (h : p a = false) : (l.filter p).count a = 0 := by
  apply List.count_eq_zero_of_not_mem
  intro hm
  have := List.of_mem_filter hm
  rw [h] at this
  cases this

/-- The four quadrant filters of the constructor partition the point list. -/
theorem filter_partition_perm (l : List Point) (u v : Point → Bool) :
    ((l.filter (fun a => u a && v a)) ++ (l.filter (fun a => u a && !v a)) ++
      (l.filter (fun a => !u a && v a)) ++ (l.filter (fun a => !u a && !v a))).Perm l := by
  rw [List.perm_iff_count]
  intro a
  simp only [List.count_append]
  by_cases hu : u a = true <;> by_cases hv : v a = true
  · rw [List.count_filter (by simp [hu, hv]), count_filter_of_neg (by simp [hu, hv]),
      count_filter_of_neg (by simp [hu, hv]), count_filter_of_neg (by simp [hu, hv])]
    omega
  · rw [count_filter_of_neg (by simp [hu, hv]), List.count_filter (by simp [hu, hv]),
      count_filter_of_neg (by simp [hu, hv]), count_filter_of_neg (by simp [hu, hv])]
    omega
  · rw [count_filter_of_neg (by simp [hu, hv]), count_filter_of_neg (by simp [hu, hv]),
      List.count_filter (by simp [hu, hv]), count_filter_of_neg (by simp [hu, hv])]
    omega
  · rw [count_filter_of_neg (by simp [hu, hv]), count_filter_of_neg (by simp [hu, hv]),
      count_filter_of_neg (by simp [hu, hv]), List.count_filter (by simp [hu, hv])]
    omega

theorem except_bind_ok {ε α β : Type} {x : Except ε α} {f : α → Except ε β} {b : β}
    (h : (x >>= f) = .ok b) : ∃ a, x = .ok a ∧ f a = .ok b := by
  cases x with
  | error e =>
    rw [show ((Except.error e : Except ε α) >>= f) = Except.error e from rfl] at h
    exact Except.noConfusion h
  | ok a =>
    rw [show ((Except.ok a : Except ε α) >>= f) = f a from rfl] at h
    exact ⟨a, rfl, h⟩

theorem build1_ok {fuel : Nat} {qp : List Point} {r : Option QTree}
    (h : (if qp.isEmpty then Except.ok none
      else (buildQuadTree qp fuel).map some) = .ok r) :
    (qp = [] ∧ r = none) ∨
      ∃ t, buildQuadTree qp fuel = .ok t ∧ r = some t := by
  by_cases he : qp.isEmpty
  · rw [if_pos he] at h
    cases h
    exact Or.inl ⟨List.isEmpty_iff.mp he, rfl⟩
  · rw [if_neg he] at h
    cases hb : buildQuadTree qp fuel with
    | error e => rw [hb] at h; cases h
    | ok t =>
      rw [hb] at h
      cases h
      exact Or.inr ⟨t, rfl, rfl⟩

theorem decide_ge_eq_not_lt (a b : Int) : (decide (a ≥ b)) = !decide (a < b) := by
  by_cases h : a < b
  · simp [h, show ¬ (a ≥ b) by omega]
  · simp [h, show a ≥ b by omega]

theorem buildQuadTree_points :
    ∀ (fuel : Nat) (pts : List Point) (t : QTree),
      buildQuadTree pts fuel = .ok t →
      (treePoints t).Perm pts ∧ (∀ p ∈ pts, coversPoint t p = true) := by
  intro fuel
  induction fuel with
  | zero => intro pts t h; cases h
  | succ fuel ih =>
    intro pts t h
    unfold buildQuadTree at h
    by_cases he : pts.isEmpty
    · rw [if_pos he] at h; cases h
    · rw [if_neg he] at h
      by_cases h1 : pts.length = 1
      · rw [if_pos h1] at h
        cases h
        rcases List.length_eq_one.mp h1 with ⟨p, rfl⟩
        refine ⟨by simp [treePoints], ?_⟩
        intro q hq
        simp only [List.mem_singleton] at hq
        subst hq
        simp [coversPoint]
      · rw [if_neg h1] at h
        obtain ⟨tl, hb1, h⟩ := except_bind_ok h
        obtain ⟨tr, hb2, h⟩ := except_bind_ok h
        obtain ⟨bl, hb3, h⟩ := except_bind_ok h
        obtain ⟨br, hb4, h⟩ := except_bind_ok h
        injection h with h
        subst h
        set yMin := listMinInt (pts.map (fun p => p.y)) with hyMin
        set yMax := listMaxInt (pts.map (fun p => p.y)) with hyMax
        set xMin := listMinInt (pts.map (fun p => p.x)) with hxMin
        set xMax := listMaxInt (pts.map (fun p => p.x)) with hxMax
        have hchild : ∀ (c : Option QTree) (cond : Point → Bool),
            ((pts.filter cond = [] ∧ c = none) ∨
              ∃ t', buildQuadTree (pts.filter cond) fuel = .ok t' ∧ c = some t') →
            (match c with | some t' => treePoints t' | none => ([] : List Point)).Perm
              (pts.filter cond) := by
          rintro c cond (⟨hnil, rfl⟩ | ⟨t', hbt, rfl⟩)
          · simp [hnil]
          · exact (ih _ _ hbt).1
        have hp1 := hchild tl _ (build1_ok hb1)
        have hp2 := hchild tr _ (build1_ok hb2)
        have hp3 := hchild bl _ (build1_ok hb3)
        have hp4 := hchild br _ (build1_ok hb4)
        constructor
        · rw [treePoints.eq_def]
          have hperm := ((hp1.append hp2).append hp3).append hp4
          refine hperm.trans ?_
          have hf2 : pts.filter
                (fun p => decide (2 * p.y < yMin + yMax) && decide (2 * p.x ≥ xMin + xMax)) =
              pts.filter (fun p => decide (2 * p.y < yMin + yMax) &&
                !decide (2 * p.x < xMin + xMax)) :=
            List.filter_congr (fun p _ => by rw [decide_ge_eq_not_lt])
          have hf3 : pts.filter
                (fun p => decide (2 * p.y ≥ yMin + yMax) && decide (2 * p.x < xMin + xMax)) =
              pts.filter (fun p => !decide (2 * p.y < yMin + yMax) &&
                decide (2 * p.x < xMin + xMax)) :=
            List.filter_congr (fun p _ => by rw [decide_ge_eq_not_lt])
          have hf4 : pts.filter
                (fun p => decide (2 * p.y ≥ yMin + yMax) && decide (2 * p.x ≥ xMin + xMax)) =
              pts.filter (fun p => !decide (2 * p.y < yMin + yMax) &&
                !decide (2 * p.x < xMin + xMax)) :=
            List.filter_congr (fun p _ => by rw [decide_ge_eq_not_lt, decide_ge_eq_not_lt])
          rw [hf2, hf3, hf4]
          exact filter_partition_perm pts (fun p => decide (2 * p.y < yMin + yMax))
            (fun p => decide (2 * p.x < xMin + xMax))
        · intro p hp
          show nodeCovers yMin yMax xMin xMax p = true
          simp only [nodeCovers, Bool.and_eq_true, decide_eq_true_eq]
          refine ⟨⟨⟨?_, ?_⟩, ?_⟩, ?_⟩
          · exact listMinInt_le _ p.y (List.mem_map_of_mem _ hp)
          · exact le_listMaxInt _ p.y (List.mem_map_of_mem _ hp)
          · exact listMinInt_le _ p.x (List.mem_map_of_mem _ hp)
          · exact le_listMaxInt _ p.x (List.mem_map_of_mem _ hp)



theorem treePoints_leaf (p : Point) : treePoints (QTree.leaf p) = [p] := by
  rw [treePoints.eq_def]

theorem treePoints_node (y1 y2 x1 x2 : Int) (tl tr bl br : Option QTree) :
    treePoints (QTree.node y1 y2 x1 x2 tl tr bl br) =
      (match tl with | some t => treePoints t | none => []) ++
      (match tr with | some t => treePoints t | none => []) ++
      (match bl with | some t => treePoints t | none => []) ++
      (match br with | some t => treePoints t | none => []) := by
  rw [treePoints.eq_def]

theorem getExprs_leaf (f : Point → Bool) (p : Point) :
    getExprs f (QTree.leaf p) = [f p] := by
  rw [getExprs.eq_def]

theorem getExprs_node (f : Point → Bool) (y1 y2 x1 x2 : Int) (tl tr bl br : Option QTree) :
    getExprs f (QTree.node y1 y2 x1 x2 tl tr bl br) =
      (match tl with | some t => getExprs f t | none => []) ++
      (match tr with | some t => getExprs f t | none => []) ++
      (match bl with | some t => getExprs f t | none => []) ++
      (match br with | some t => getExprs f t | none => []) := by
  rw [getExprs.eq_def]

theorem getOtherPointsExpr_leaf (f : Point → Bool) (q : Point) (E : List Point) :
    getOtherPointsExpr f (QTree.leaf q) E =
      if E.any (fun p => q == p) then none else some (f q) := by
  rw [getOtherPointsExpr.eq_def]

theorem getOtherPointsExpr_node (f : Point → Bool) (y1 y2 x1 x2 : Int)
    (tl tr bl br : Option QTree) (E : List Point) :
    getOtherPointsExpr f (QTree.node y1 y2 x1 x2 tl tr bl br) E =
      if (E.filter (fun p => nodeCovers y1 y2 x1 x2 p)).isEmpty then
        some ((getExprs f (QTree.node y1 y2 x1 x2 tl tr bl br)).all id)
      else
        some ((((match tl with
            | some t => [getOtherPointsExpr f t
                (E.filter (fun p => nodeCovers y1 y2 x1 x2 p))]
            | none => []) ++
          (match tr with
            | some t => [getOtherPointsExpr f t
                (E.filter (fun p => nodeCovers y1 y2 x1 x2 p))]
            | none => []) ++
          (match bl with
            | some t => [getOtherPointsExpr f t
                (E.filter (fun p => nodeCovers y1 y2 x1 x2 p))]
            | none => []) ++
          (match br with
            | some t => [getOtherPointsExpr f t
                (E.filter (fun p => nodeCovers y1 y2 x1 x2 p))]
            | none => [])).filterMap id).all id) := by
  rw [getOtherPointsExpr.eq_def]

theorem all_id_map (l : List Point) (f : Point → Bool) :
    (l.map f).all id = l.all f := by
  induction l with
  | nil => rfl
  | cons a l ih => simp [List.all_cons, ih]

theorem getExprs_eq_map_built :
    ∀ (fuel : Nat) (pts : List Point) (t : QTree),
      buildQuadTree pts fuel = .ok t → ∀ f : Point → Bool,
      getExprs f t = (treePoints t).map f := by
  intro fuel
  induction fuel with
  | zero => intro pts t h; cases h
  | succ fuel ih =>
    intro pts t h f
    unfold buildQuadTree at h
    by_cases he : pts.isEmpty
    · rw [if_pos he] at h; cases h
    · rw [if_neg he] at h
      by_cases h1 : pts.length = 1
      · rw [if_pos h1] at h
        cases h
        rw [getExprs_leaf, treePoints_leaf]
        rfl
      · rw [if_neg h1] at h
        obtain ⟨tl, hb1, h⟩ := except_bind_ok h
        obtain ⟨tr, hb2, h⟩ := except_bind_ok h
        obtain ⟨bl, hb3, h⟩ := except_bind_ok h
        obtain ⟨br, hb4, h⟩ := except_bind_ok h
        injection h with h
        subst h
        have hchild : ∀ (c : Option QTree) (cond : Point → Bool),
            ((pts.filter cond = [] ∧ c = none) ∨
              ∃ t', buildQuadTree (pts.filter cond) fuel = .ok t' ∧ c = some t') →
            (match c with | some t' => getExprs f t' | none => ([] : List Bool)) =
              (match c with | some t' => treePoints t' | none => ([] : List Point)).map f := by
          rintro c cond (⟨hnil, rfl⟩ | ⟨t', hbt, rfl⟩)
          · rfl
          · exact ih _ _ hbt f
        rw [getExprs_node, treePoints_node]
        simp only [List.map_append]
        rw [hchild tl _ (build1_ok hb1), hchild tr _ (build1_ok hb2),
          hchild bl _ (build1_ok hb3), hchild br _ (build1_ok hb4)]

theorem getOtherPointsExpr_none_iff (f : Point → Bool) (t : QTree) (E : List Point) :
    getOtherPointsExpr f t E = none ↔ ∃ p, t = QTree.leaf p ∧ p ∈ E := by
  cases t with
  | leaf q =>
    rw [getOtherPointsExpr_leaf]
    by_cases hq : E.any (fun p => q == p) = true
    · rcases List.any_eq_true.mp hq with ⟨x, hx, hqx⟩
      rw [beq_iff_eq] at hqx
      subst hqx
      rw [if_pos hq]
      exact ⟨fun _ => ⟨q, rfl, hx⟩, fun _ => rfl⟩
    · rw [if_neg hq]
      constructor
      · intro hcon; cases hcon
      · rintro ⟨p, hp, hpE⟩
        injection hp with hp
        subst hp
        exact absurd (List.any_eq_true.mpr ⟨q, hpE, by simp⟩) hq
  | node yMin yMax xMin xMax tl tr bl br =>
    rw [getOtherPointsExpr_node]
    constructor
    · by_cases hce : (E.filter (fun p => nodeCovers yMin yMax xMin xMax p)).isEmpty
      · rw [if_pos hce]
        intro hcon; cases hcon
      · rw [if_neg hce]
        intro hcon; cases hcon
    · rintro ⟨p, hp, _⟩
      cases hp

theorem contains_eq_any (E : List Point) (q : Point) :
    E.contains q = E.any (fun p => q == p) := by
  induction E with
  | nil => rfl
  | cons a E ih =>
    simp only [List.contains_cons, List.any_cons, ← ih]

theorem contains_eq_true_iff (E : List Point) (q : Point) :
    E.contains q = true ↔ q ∈ E := by
  rw [contains_eq_any]
  constructor
  · intro h
    rcases List.any_eq_true.mp h with ⟨x, hx, hqx⟩
    rw [beq_iff_eq] at hqx
    subst hqx
    exact hx
  · intro h
    exact List.any_eq_true.mpr ⟨q, h, by simp⟩

theorem getOtherPointsExpr_conj :
    ∀ (fuel : Nat) (pts : List Point) (t : QTree),
      buildQuadTree pts fuel = .ok t →
      ∀ (f : Point → Bool) (E : List Point) (b : Bool),
        getOtherPointsExpr f t E = some b →
        b = ((treePoints t).filter (fun p => !(E.contains p))).all f := by
  intro fuel
  induction fuel with
  | zero => intro pts t h; cases h
  | succ fuel ih =>
    intro pts t h f E b hg
    have h0 := h
    unfold buildQuadTree at h
    by_cases he : pts.isEmpty
    · rw [if_pos he] at h; cases h
    · rw [if_neg he] at h
      by_cases h1 : pts.length = 1
      · rw [if_pos h1] at h
        cases h
        rw [getOtherPointsExpr_leaf] at hg
        by_cases hq : E.any (fun p => pts.headD ⟨0, 0⟩ == p) = true
        · rw [if_pos hq] at hg; cases hg
        · rw [if_neg hq] at hg
          injection hg with hg
          subst hg
          rw [treePoints_leaf]
          have hcont : E.contains (pts.headD ⟨0, 0⟩) = false := by
            rw [contains_eq_any]
            exact Bool.eq_false_iff.mpr hq
          have hstep : ([pts.headD ⟨0, 0⟩].filter (fun p => !(E.contains p))) =
              [pts.headD ⟨0, 0⟩] := by
            rw [List.filter_eq_self]
            intro a ha
            simp only [List.mem_singleton] at ha
            subst ha
            rw [hcont]
            rfl
          rw [hstep]
          simp [List.all_cons]
      · rw [if_neg h1] at h
        obtain ⟨tl, hb1, h⟩ := except_bind_ok h
        obtain ⟨tr, hb2, h⟩ := except_bind_ok h
        obtain ⟨bl, hb3, h⟩ := except_bind_ok h
        obtain ⟨br, hb4, h⟩ := except_bind_ok h
        injection h with h
        subst h
        have hcovers := (buildQuadTree_points (fuel + 1) pts _ h0).2
        have hperm := (buildQuadTree_points (fuel + 1) pts _ h0).1
        set yMin := listMinInt (pts.map (fun p => p.y)) with hyMin
        set yMax := listMaxInt (pts.map (fun p => p.y)) with hyMax
        set xMin := listMinInt (pts.map (fun p => p.x)) with hxMin
        set xMax := listMaxInt (pts.map (fun p => p.x)) with hxMax
        rw [getOtherPointsExpr_node] at hg
        by_cases hce : (E.filter (fun p => nodeCovers yMin yMax xMin xMax p)).isEmpty
        · rw [if_pos hce] at hg
          injection hg with hg
          subst hg
          have hmap := getExprs_eq_map_built (fuel + 1) pts _ h0 f
          rw [hmap]
          have hfix : (treePoints (QTree.node yMin yMax xMin xMax tl tr bl br)).filter
              (fun p => !(E.contains p)) =
              treePoints (QTree.node yMin yMax xMin xMax tl tr bl br) := by
            apply List.filter_eq_self.mpr
            intro p hp
            have hpin : p ∈ pts := hperm.subset hp
            have hbnd := hcovers p hpin
            simp only [Bool.not_eq_true']
            rw [← Bool.not_eq_true, contains_eq_true_iff]
            intro hpE
            have hmem : p ∈ E.filter (fun p => nodeCovers yMin yMax xMin xMax p) :=
              List.mem_filter.mpr ⟨hpE, hbnd⟩
            rw [List.isEmpty_iff.mp hce] at hmem
            cases hmem
          rw [hfix, all_id_map]
        · rw [if_neg hce] at hg
          injection hg with hg
          subst hg
          have hchild : ∀ (c : Option QTree) (cond : Point → Bool),
              ((pts.filter cond = [] ∧ c = none) ∨
                ∃ t', buildQuadTree (pts.filter cond) fuel = .ok t' ∧ c = some t') →
              (((match c with
                  | some t' => [getOtherPointsExpr f t'
                      (E.filter (fun p => nodeCovers yMin yMax xMin xMax p))]
                  | none => ([] : List (Option Bool))).filterMap id).all id) =
                ((match c with
                  | some t' => treePoints t'
                  | none => ([] : List Point)).filter (fun p => !(E.contains p))).all f := by
            rintro c cond (⟨hnil, rfl⟩ | ⟨t', hbt, rfl⟩)
            · rfl
            · show (([getOtherPointsExpr f t'
                  (E.filter (fun p => nodeCovers yMin yMax xMin xMax p))]).filterMap id).all id =
                ((treePoints t').filter (fun p => !(E.contains p))).all f
              have hsub : ∀ p ∈ treePoints t', p ∈ pts := by
                intro p hp
                have hmem := (buildQuadTree_points fuel _ _ hbt).1.subset hp
                exact List.mem_of_mem_filter hmem
              have hcontfix : ∀ p ∈ treePoints t',
                  (E.filter (fun p => nodeCovers yMin yMax xMin xMax p)).contains p =
                    E.contains p := by
                intro p hp
                by_cases hpE : p ∈ E
                · have hbnd := hcovers p (hsub p hp)
                  have hc1 : (E.filter
                      (fun p => nodeCovers yMin yMax xMin xMax p)).contains p = true := by
                    rw [contains_eq_true_iff]
                    exact List.mem_filter.mpr ⟨hpE, hbnd⟩
                  rw [hc1, (contains_eq_true_iff E p).mpr hpE]
                · have hc1 : (E.filter
                      (fun p => nodeCovers yMin yMax xMin xMax p)).contains p = false := by
                    rw [← Bool.not_eq_true, contains_eq_true_iff]
                    intro hover
                    exact hpE (List.mem_of_mem_filter hover)
                  have hc2 : E.contains p = false := by
                    rw [← Bool.not_eq_true, contains_eq_true_iff]
                    exact hpE
                  rw [hc1, hc2]
              cases hr : getOtherPointsExpr f t'
                  (E.filter (fun p => nodeCovers yMin yMax xMin xMax p)) with
              | none =>
                rcases (getOtherPointsExpr_none_iff f t' _).mp hr with ⟨q, rfl, hqcov⟩
                have hqE : q ∈ E := List.mem_of_mem_filter hqcov
                have hqcont : E.contains q = true := (contains_eq_true_iff E q).mpr hqE
                rw [treePoints_leaf]
                have hdrop : ([q].filter (fun p => !(E.contains p))) = [] := by
                  simp [hqcont, hqE]
                rw [hdrop]
                rfl
              | some bc =>
                have hbc := ih _ _ hbt f _ bc hr
                simp only [List.filterMap_cons, List.filterMap_nil, id_eq, List.all_cons,
                  List.all_nil, Bool.and_true]
                rw [hbc]
                congr 1
                apply List.filter_congr
                intro p hp
                rw [hcontfix p hp]
          rw [treePoints_node]
          simp only [List.filterMap_append, List.all_append, List.filter_append]
          rw [hchild tl _ (build1_ok hb1), hchild tr _ (build1_ok hb2),
            hchild bl _ (build1_ok hb3), hchild br _ (build1_ok hb4)]



theorem getPointExpr_leaf (f : Point → Bool) (q p : Point) :
    getPointExpr f (QTree.leaf q) p =
      if q == p then .ok (f q) else .error "Point not in QuadTree" := by
  rw [getPointExpr.eq_def]

theorem getPointExpr_node (f : Point → Bool) (y1 y2 x1 x2 : Int)
    (tl tr bl br : Option QTree) (p : Point) :
    getPointExpr f (QTree.node y1 y2 x1 x2 tl tr bl br) p =
      if 2 * p.y < y1 + y2 then
        if 2 * p.x < x1 + x2 then
          match tl with
          | some t => getPointExpr f t p
          | none => .error "Point not in QuadTree"
        else
          match tr with
          | some t => getPointExpr f t p
          | none => .error "Point not in QuadTree"
      else
        if 2 * p.x < x1 + x2 then
          match bl with
          | some t => getPointExpr f t p
          | none => .error "Point not in QuadTree"
        else
          match br with
          | some t => getPointExpr f t p
          | none => .error "Point not in QuadTree" := by
  rw [getPointExpr.eq_def]

theorem getPointExpr_not_mem_error :
    ∀ (fuel : Nat) (pts : List Point) (t : QTree),
      buildQuadTree pts fuel = .ok t →
      ∀ (f : Point → Bool) (p : Point), p ∉ pts →
        ∃ e, getPointExpr f t p = .error e := by
  intro fuel
  induction fuel with
  | zero => intro pts t h; cases h
  | succ fuel ih =>
    intro pts t h f p hp
    unfold buildQuadTree at h
    by_cases he : pts.isEmpty
    · rw [if_pos he] at h; cases h
    · rw [if_neg he] at h
      by_cases h1 : pts.length = 1
      · rw [if_pos h1] at h
        cases h
        rcases List.length_eq_one.mp h1 with ⟨q, hq⟩
        rw [getPointExpr_leaf]
        have hne : (pts.headD ⟨0, 0⟩ == p) = false := by
          rw [beq_eq_false_iff_ne]
          intro hcon
          apply hp
          rw [hq] at hcon ⊢
          simp only [List.headD_cons] at hcon
          rw [hcon]
          exact List.mem_singleton.mpr rfl
        rw [hne]
        exact ⟨_, by rfl⟩
      · rw [if_neg h1] at h
        obtain ⟨tl, hb1, h⟩ := except_bind_ok h
        obtain ⟨tr, hb2, h⟩ := except_bind_ok h
        obtain ⟨bl, hb3, h⟩ := except_bind_ok h
        obtain ⟨br, hb4, h⟩ := except_bind_ok h
        injection h with h
        subst h
        rw [getPointExpr_node]
        by_cases hy : 2 * p.y < listMinInt (pts.map (fun p => p.y)) +
            listMaxInt (pts.map (fun p => p.y))
        · rw [if_pos hy]
          by_cases hx : 2 * p.x < listMinInt (pts.map (fun p => p.x)) +
              listMaxInt (pts.map (fun p => p.x))
          · rw [if_pos hx]
            rcases build1_ok hb1 with ⟨hnil, rfl⟩ | ⟨t', hbt, rfl⟩
            · exact ⟨_, rfl⟩
            · exact ih _ _ hbt f p (fun hmem => hp (List.mem_of_mem_filter hmem))
          · rw [if_neg hx]
            rcases build1_ok hb2 with ⟨hnil, rfl⟩ | ⟨t', hbt, rfl⟩
            · exact ⟨_, rfl⟩
            · exact ih _ _ hbt f p (fun hmem => hp (List.mem_of_mem_filter hmem))
        · rw [if_neg hy]
          by_cases hx : 2 * p.x < listMinInt (pts.map (fun p => p.x)) +
              listMaxInt (pts.map (fun p => p.x))
          · rw [if_pos hx]
            rcases build1_ok hb3 with ⟨hnil, rfl⟩ | ⟨t', hbt, rfl⟩
            · exact ⟨_, rfl⟩
            · exact ih _ _ hbt f p (fun hmem => hp (List.mem_of_mem_filter hmem))
          · rw [if_neg hx]
            rcases build1_ok hb4 with ⟨hnil, rfl⟩ | ⟨t', hbt, rfl⟩
            · exact ⟨_, rfl⟩
            · exact ih _ _ hbt f p (fun hmem => hp (List.mem_of_mem_filter hmem))

/-- C10: the `ExpressionQuadTree` constructor throws on an empty point list,
and `getPointExpr` on a constructed tree throws (rather than returning an
expression) for every point that is not one of the tree's points. -/
theorem quadTree_error_handling :
    (∀ fuel : Nat, buildQuadTree [] (fuel + 1) =
        .error "A quadtree node must be constructed with at least one point") ∧
    ∀ (fuel : Nat) (pts : List Point) (t : QTree),
      buildQuadTree pts fuel = .ok t →
      ∀ (f : Point → Bool) (p : Point), p ∉ pts →
        ∃ e, getPointExpr f t p = .error e := by
  constructor
  · intro fuel
    rfl
  · exact getPointExpr_not_mem_error

/-- Witness for C10 at a concrete tree and point. -/
theorem quadTree_error_handling_witness :
    buildQuadTree [] 1 =
        .error "A quadtree node must be constructed with at least one point" ∧
    ∃ e, getPointExpr (fun _ => false) (QTree.leaf ⟨0, 0⟩) ⟨0, 1⟩ = .error e := by
  refine ⟨quadTree_error_handling.1 0, ?_⟩
  exact quadTree_error_handling.2 1 [⟨0, 0⟩] (QTree.leaf ⟨0, 0⟩) (by rfl)
    (fun _ => false) ⟨0, 1⟩ (by decide)

theorem perm_all_eq {l l' : List Point} (h : l.Perm l') (f : Point → Bool) :
    l.all f = l'.all f := by
  by_cases hl : l.all f = true
  · rw [hl]
    symm
    rw [List.all_eq_true] at hl ⊢
    intro x hx
    exact hl x (h.mem_iff.mpr hx)
  · have hl' : ¬ l'.all f = true := by
      intro hc
      apply hl
      rw [List.all_eq_true] at hc ⊢
      intro x hx
      exact hc x (h.mem_iff.mp hx)
    rw [Bool.not_eq_true] at hl hl'
    rw [hl, hl']

/-- The quadtree built over the two-point set {(0,0), (0,1)}. -/
def twoPointTree : QTree :=
  QTree.node 0 0 0 1 none none (some (QTree.leaf ⟨0, 0⟩)) (some (QTree.leaf ⟨0, 1⟩))

/-- C3 counterexample: over the two-point set S = {(0,0), (0,1)} with every
point of S excluded, `getOtherPointsExpr` does not return `undefined`: the
internal root recurses into its quadrants, every leaf returns `undefined`,
and the node conjoins the empty list of surviving terms into `And()` = true.
So the claim's "returns undefined when every point of S is in E" is false for
every tree with at least two points (here even with the per-point predicate
constantly false). -/
theorem getOtherPointsExpr_all_excluded_counterexample :
    buildQuadTree [⟨0, 0⟩, ⟨0, 1⟩] 3 = .ok twoPointTree ∧
    getOtherPointsExpr (fun _ => false) twoPointTree [⟨0, 0⟩, ⟨0, 1⟩] = some true := by
  exact ⟨rfl, rfl⟩

/-- C3 (amended): for every built `ExpressionQuadTree` over point set S and
every exclusion list E, `getOtherPointsExpr` returns `undefined` exactly when
the whole tree is a single-point leaf whose point is excluded; in every other
case it returns an expression whose value is the conjunction of the per-point
predicate over exactly the points of S not in E (`true` when all are
excluded).  The tree's points are exactly the constructor's points. -/
theorem getOtherPointsExpr_characterization (pts : List Point) (fuel : Nat)
    (t : QTree) (hbuild : buildQuadTree pts fuel = .ok t) (f : Point → Bool)
    (E : List Point) :
    (treePoints t).Perm pts ∧
    (getOtherPointsExpr f t E = none ↔ ∃ p, t = QTree.leaf p ∧ p ∈ E) ∧
    ∀ b, getOtherPointsExpr f t E = some b →
      b = (pts.filter (fun p => !(E.contains p))).all f := by
  refine ⟨(buildQuadTree_points fuel pts t hbuild).1,
    getOtherPointsExpr_none_iff f t E, ?_⟩
  intro b hb
  rw [getOtherPointsExpr_conj fuel pts t hbuild f E b hb]
  exact perm_all_eq
    (((buildQuadTree_points fuel pts t hbuild).1).filter (fun p => !(E.contains p))) f

/-- Witness for C3's amended characterization at a concrete tree. -/
theorem getOtherPointsExpr_characterization_witness :
    (treePoints twoPointTree).Perm [⟨0, 0⟩, ⟨0, 1⟩] ∧
    (getOtherPointsExpr (fun p => p.x == 0) twoPointTree [(⟨0, 0⟩ : Point)] = none ↔
      ∃ p, twoPointTree = QTree.leaf p ∧ p ∈ [(⟨0, 0⟩ : Point)]) ∧
    ∀ b, getOtherPointsExpr (fun p => p.x == 0) twoPointTree [(⟨0, 0⟩ : Point)] = some b →
      b = ([⟨0, 0⟩, ⟨0, 1⟩].filter
        (fun p => !(([(⟨0, 0⟩ : Point)]).contains p))).all (fun p => p.x == 0) :=
  getOtherPointsExpr_characterization [⟨0, 0⟩, ⟨0, 1⟩] 3 twoPointTree (by rfl)
    (fun p => p.x == 0) [⟨0, 0⟩]



/-! ## Lattices and the path constrainer (geometry.ts, paths.ts)

A lattice is embedded by its ordered point list and its edge-sharing
direction vectors; `pointToIndex` is the position in the point list and
`oppositeDirection` is vector negation (geometry.ts looks the negated vector
up in its direction table).  Well-formedness records what every concrete
lattice class guarantees: distinct points, distinct directions, and closure
under negation. -/

/-- The lattice data the constrainers consume. -/
structure Lattice where
  points : List Point
  dirs : List Vector

/-- Invariants of every concrete lattice class. -/
def Lattice.WF (L : Lattice) : Prop :=
  L.points.Nodup ∧ L.dirs.Nodup ∧ ∀ v ∈ L.dirs, v.negate ∈ L.dirs

/-- Embeds `lattice.pointToIndex` (position in the sorted point list). -/
def Lattice.pointToIndex (L : Lattice) (p : Point) : Int := L.points.indexOf p

/-- The unordered direction pairs of the `PathSymbolSet` segment symbols, in
construction order (`combinations(dirs, 2)`). -/
def segmentPairs (dirs : List Vector) : List (List Vector) := combinations dirs 2

/-- Embeds `_maxPathSegmentSymbolIndex` (0 when no pair was processed). -/
def maxPathSegmentSymbolIndex (dirs : List Vector) : Int :=
  if (segmentPairs dirs).length = 0 then 0 else (segmentPairs dirs).length - 1

/-- Embeds `_maxPathTerminalSymbolIndex` (0 unless terminals were created). -/
def maxPathTerminalSymbolIndex (dirs : List Vector) (includeTerminals : Bool) : Int :=
  if includeTerminals ∧ dirs.length ≠ 0 then
    (segmentPairs dirs).length + dirs.length - 1
  else 0

/-- Embeds `PathSymbolSet.terminalForDirection`: the terminal appended for
direction `d` received index (number of segment symbols) + (position of `d`
in the direction list). -/
def terminalForDirection (dirs : List Vector) (includeTerminals : Bool)
    (d : Vector) : Option Int :=
  if includeTerminals then some ((segmentPairs dirs).length + dirs.indexOf d) else none

/-- Embeds `PathSymbolSet.symbolsForDirection`: the indices of the segment
pairs containing `d` (in pair order) followed by `d`'s terminal index. -/
def symbolsForDirection (dirs : List Vector) (includeTerminals : Bool)
    (d : Vector) : List Int :=
  (((List.range (segmentPairs dirs).length).filter
      (fun k => d ∈ (segmentPairs dirs).getD k [])).map (fun k => (k : Int))) ++
    (if includeTerminals then [((segmentPairs dirs).length + dirs.indexOf d : Int)] else [])

/-- Embeds `PathSymbolSet.isPath` (on the model value of a cell). -/
def isPath (dirs : List Vector) (includeTerminals : Bool) (c : Int) : Prop :=
  if includeTerminals then c < maxPathTerminalSymbolIndex dirs includeTerminals + 1
  else c < maxPathSegmentSymbolIndex dirs + 1

/-- Embeds `PathSymbolSet.isTerminal` (on the model value of a cell). -/
def isTerminal (dirs : List Vector) (includeTerminals : Bool) (c : Int) : Prop :=
  includeTerminals = true ∧ maxPathSegmentSymbolIndex dirs < c ∧
    c < maxPathTerminalSymbolIndex dirs includeTerminals + 1

instance isPathDecidable (dirs : List Vector) (includeTerminals : Bool) (c : Int) :
    Decidable (isPath dirs includeTerminals c) := by
  unfold isPath
  infer_instance

instance isTerminalDecidable (dirs : List Vector) (includeTerminals : Bool) (c : Int) :
    Decidable (isTerminal dirs includeTerminals c) := by
  unfold isTerminal
  infer_instance

/-- A model of the `PathConstrainer`'s variables: the symbol-grid cell values
and the two auxiliary grids. -/
structure PathModel where
  cell : Point → Int
  pathInstance : Point → Int
  pathOrder : Point → Int

/-- The first and second direction of the k-th segment pair. -/
def pairDir (dirs : List Vector) (k i : Nat) : Vector :=
  ((segmentPairs dirs).getD k []).getD i ⟨0, 0⟩

/-- The two order constraints emitted for a cell and the k-th segment-pair
symbol (both of the pair's neighbors being on the lattice). -/
def pairOrderConstraint (dirs : List Vector) (allowLoops : Bool) (m : PathModel)
    (p : Point) (k : Nat) : Prop :=
  (m.cell p = (k : Int) →
    m.pathOrder (p.translate (pairDir dirs k 0)) ≠
      m.pathOrder (p.translate (pairDir dirs k 1))) ∧
  (m.cell p = (k : Int) ∧ 0 < m.pathOrder p →
    (m.pathOrder (p.translate (pairDir dirs k 0)) = m.pathOrder p - 1 ∧
      (m.pathOrder (p.translate (pairDir dirs k 1)) = m.pathOrder p + 1 ∨
        (allowLoops = true ∧ m.pathOrder (p.translate (pairDir dirs k 1)) = 0))) ∨
    ((m.pathOrder (p.translate (pairDir dirs k 0)) = m.pathOrder p + 1 ∨
        (allowLoops = true ∧ m.pathOrder (p.translate (pairDir dirs k 0)) = 0)) ∧
      m.pathOrder (p.translate (pairDir dirs k 1)) = m.pathOrder p - 1))

instance pairOrderConstraintDecidable (dirs : List Vector) (allowLoops : Bool)
    (m : PathModel) (p : Point) (k : Nat) :
    Decidable (pairOrderConstraint dirs allowLoops m p k) := by
  unfold pairOrderConstraint
  infer_instance

/-- The constraints `_addPathOrderGridConstraints` emits for one cell. -/
def pathOrderConstraints (L : Lattice) (includeTerminals complete allowLoops : Bool)
    (m : PathModel) (p : Point) : Prop :=
  (if complete then 0 ≤ m.pathOrder p else -1 ≤ m.pathOrder p) ∧
  (isPath L.dirs includeTerminals (m.cell p) ↔ m.pathOrder p ≠ -1) ∧
  (∀ d ∈ L.dirs, ∀ s ∈ (terminalForDirection L.dirs includeTerminals d).toList,
    (p.translate d) ∈ L.points →
    m.cell p = s →
      (m.pathOrder p = 0 ∧ m.pathOrder (p.translate d) = 1) ∨
      (m.pathOrder p > 0 ∧ m.pathOrder (p.translate d) = m.pathOrder p - 1)) ∧
  (∀ k, k < (segmentPairs L.dirs).length →
    (p.translate (pairDir L.dirs k 0)) ∈ L.points →
    (p.translate (pairDir L.dirs k 1)) ∈ L.points →
    pairOrderConstraint L.dirs allowLoops m p k)

instance pathOrderConstraintsDecidable (L : Lattice)
    (includeTerminals complete allowLoops : Bool) (m : PathModel) (p : Point) :
    Decidable (pathOrderConstraints L includeTerminals complete allowLoops m p) := by
  unfold pathOrderConstraints
  refine @instDecidableAnd _ _ ?_ (@instDecidableAnd _ _ ?_ (@instDecidableAnd _ _ ?_ ?_))
  all_goals infer_instance

/-- The constraints a `PathConstrainer` (plus the underlying `SymbolGrid`
bounds) adds to its solver, as a predicate on models: symbol-range bounds,
`_addPathEdgeConstraints`, `_addPathInstanceGridConstraints`,
`_addPathOrderGridConstraints` and
`_addAllowTerminatedPathsConstraints`.  `extra` is the number of additional
symbols appended to the `PathSymbolSet` after construction (they raise the
grid's upper bound and satisfy none of the path predicates). -/
def PathSat (L : Lattice) (includeTerminals complete allowTerminatedPaths allowLoops : Bool)
    (extra : Nat) (m : PathModel) : Prop :=
  (∀ p ∈ L.points,
    0 ≤ m.cell p ∧
    m.cell p ≤ ((segmentPairs L.dirs).length : Int) +
      (if includeTerminals then (L.dirs.length : Int) else 0) + (extra : Int) - 1) ∧
  (∀ p ∈ L.points, ∀ d ∈ L.dirs,
    if (p.translate d) ∈ L.points then
      m.cell p ∈ symbolsForDirection L.dirs includeTerminals d →
        m.cell (p.translate d) ∈ symbolsForDirection L.dirs includeTerminals d.negate
    else
      ∀ s ∈ symbolsForDirection L.dirs includeTerminals d, m.cell p ≠ s) ∧
  (∀ p ∈ L.points,
    (if complete then 0 ≤ m.pathInstance p else -1 ≤ m.pathInstance p) ∧
    m.pathInstance p < L.points.length ∧
    (isPath L.dirs includeTerminals (m.cell p) ↔ m.pathInstance p ≠ -1) ∧
    (m.pathOrder p = 0 ↔ m.pathInstance p = L.pointToIndex p) ∧
    (∀ d ∈ L.dirs, (p.translate d) ∈ L.points →
      m.cell p ∈ symbolsForDirection L.dirs includeTerminals d →
        m.pathInstance p = m.pathInstance (p.translate d))) ∧
  (∀ p ∈ L.points,
    pathOrderConstraints L includeTerminals complete allowLoops m p) ∧
  (allowTerminatedPaths = false → ∀ p ∈ L.points,
    ¬ isTerminal L.dirs includeTerminals (m.cell p))

instance pathSatDecidable (L : Lattice)
    (includeTerminals complete allowTerminatedPaths allowLoops : Bool)
    (extra : Nat) (m : PathModel) :
    Decidable (PathSat L includeTerminals complete allowTerminatedPaths allowLoops extra m) := by
  unfold PathSat
  refine @instDecidableAnd _ _ ?_ (@instDecidableAnd _ _ ?_
    (@instDecidableAnd _ _ ?_ (@instDecidableAnd _ _ ?_ ?_)))
  all_goals infer_instance

/-- C8: in every satisfying model of a `PathConstrainer`'s solver, for every
cell p: `pathInstance[p] = -1` iff p's symbol is not a path symbol;
`pathOrder[p] = -1` iff p's symbol is not a path symbol; and
`pathOrder[p] = 0` iff `pathInstance[p]` equals p's own lattice index. -/
theorem pathConstrainer_instance_order (L : Lattice)
    (includeTerminals complete allowTerminatedPaths allowLoops : Bool) (extra : Nat)
    (m : PathModel)
    (hsat : PathSat L includeTerminals complete allowTerminatedPaths allowLoops extra m) :
    ∀ p ∈ L.points,
      (m.pathInstance p = -1 ↔ ¬ isPath L.dirs includeTerminals (m.cell p)) ∧
      (m.pathOrder p = -1 ↔ ¬ isPath L.dirs includeTerminals (m.cell p)) ∧
      (m.pathOrder p = 0 ↔ m.pathInstance p = L.pointToIndex p) := by
  intro p hp
  obtain ⟨-, -, hinst, horder, -⟩ := hsat
  obtain ⟨-, -, hiff1, hiff2, -⟩ := hinst p hp
  obtain ⟨-, hiff3, -, -⟩ := horder p hp
  refine ⟨?_, ?_, hiff2⟩
  · rw [iff_comm, not_iff_comm, iff_comm]
    simpa using hiff1
  · rw [iff_comm, not_iff_comm, iff_comm]
    simpa using hiff3

/-- The 1×2 rectangular lattice with its N, S, E, W directions. -/
def lat1x2 : Lattice :=
  ⟨[⟨0, 0⟩, ⟨0, 1⟩], [⟨-1, 0⟩, ⟨1, 0⟩, ⟨0, 1⟩, ⟨0, -1⟩]⟩

/-- A satisfying model for a `PathConstrainer` on `lat1x2`: one length-2 path
whose cells hold the E-terminal (index 8) and the W-terminal (index 9). -/
def pathModel1x2 : PathModel :=
  ⟨fun p => if p.x = 0 then 8 else 9,
   fun _ => 0,
   fun p => if p.x = 0 then 0 else 1⟩

/-- Witness for C8 at a concrete lattice and satisfying model. -/
theorem pathConstrainer_instance_order_witness :
    PathSat lat1x2 true true true true 0 pathModel1x2 ∧
    ((pathModel1x2.pathInstance ⟨0, 0⟩ = -1 ↔
        ¬ isPath lat1x2.dirs true (pathModel1x2.cell ⟨0, 0⟩)) ∧
      (pathModel1x2.pathOrder ⟨0, 0⟩ = -1 ↔
        ¬ isPath lat1x2.dirs true (pathModel1x2.cell ⟨0, 0⟩)) ∧
      (pathModel1x2.pathOrder ⟨0, 0⟩ = 0 ↔
        pathModel1x2.pathInstance ⟨0, 0⟩ = lat1x2.pointToIndex ⟨0, 0⟩)) := by
  have hsat : PathSat lat1x2 true true true true 0 pathModel1x2 := by decide
  exact ⟨hsat, pathConstrainer_instance_order lat1x2 true true true true 0 pathModel1x2
    hsat ⟨0, 0⟩ (by decide)⟩


/-! ## Region constrainer (regions.ts)

`RegionConstrainer` models regions as a spanning forest: each cell's
`parent` variable is `X` (0, not in any region), `R` (1, region root) or the
index of the edge-sharing direction pointing at the cell's parent
(`_parentTypes` lists X, R, then the edge-sharing directions in order, so
direction number `i` gets parent index `i + 2`).  `_createGrids` bounds the
four grids and ties roots to their lattice point index, and
`_addConstraints` propagates `regionId`/`regionSize` along parent edges and
makes every `subtreeSize` the sum over child subtrees plus one. -/

/-- The per-cell decision variables of `RegionConstrainer`: the parent
pointer, subtree size, region id and region size grids. -/
structure RegionModel where
  parent : Point → Int
  subtreeSize : Point → Int
  regionId : Point → Int
  regionSize : Point → Int

/-- The parent index `_parentTypeToIndex` assigns to edge-sharing direction
`d`: X and R occupy 0 and 1, the directions follow in order. -/
def dirIndex (L : Lattice) (d : Vector) : Int := 2 + (L.dirs.indexOf d : Int)

/-- One summand of `_addConstraints`' subtree-size sum:
`If(parent(sp) == sd, subtreeSize(sp), 0)`. -/
def subtreeSizeTerm (m : RegionModel) (sp : Point) (sd : Int) : Int :=
  if m.parent sp = sd then m.subtreeSize sp else 0

/-- The bounds and root equations `_createGrids` asserts for one cell,
branching on `complete` exactly as the source does. -/
def gridCellConstraints (L : Lattice) (complete : Bool) (minSize maxSize : Int)
    (m : RegionModel) (p : Point) : Prop :=
  (if complete then 1 ≤ m.parent p else 0 ≤ m.parent p) ∧
  m.parent p < 2 + (L.dirs.length : Int) ∧
  (if complete then 1 ≤ m.subtreeSize p else 0 ≤ m.subtreeSize p) ∧
  m.subtreeSize p ≤ maxSize ∧
  (if complete then 0 ≤ m.regionId p else -1 ≤ m.regionId p) ∧
  m.regionId p < (L.points.length : Int) ∧
  (m.parent p = 0 → m.regionId p = -1) ∧
  (m.parent p = 1 → m.regionId p = L.pointToIndex p) ∧
  (if complete then minSize ≤ m.regionSize p
    else minSize ≤ m.regionSize p ∨ m.regionSize p = -1) ∧
  m.regionSize p ≤ maxSize ∧
  (m.parent p = 0 → m.regionSize p = -1) ∧
  (m.parent p = 1 → m.regionSize p = m.subtreeSize p)

/-- The two implications `constrainSide` asserts for cell `p` and its
in-grid neighbor `sp` (`sd` is the parent index of the direction from `sp`
back to `p`). -/
def constrainSide (m : RegionModel) (p sp : Point) (sd : Int) : Prop :=
  (m.parent p = 0 → m.parent sp ≠ sd) ∧
  (m.parent sp = sd →
    m.regionId p = m.regionId sp ∧ m.regionSize p = m.regionSize sp)

/-- What `_addConstraints` asserts for cell `p` and direction `d`: an
in-grid neighbor gets `constrainSide`, an off-grid direction is excluded as
a parent pointer. -/
def edgeConstraints (L : Lattice) (m : RegionModel) (p : Point) (d : Vector) : Prop :=
  if p.translate d ∈ L.points then
    constrainSide m p (p.translate d) (dirIndex L d.negate)
  else m.parent p ≠ dirIndex L d

/-- The subtree-size equation `_addConstraints` asserts for cell `p`:
`subtreeSize(p) = Sum(If(parent != X, 1, 0), ...subtreeSizeTerms)`, the
terms ranging over the in-grid neighbors. -/
def subtreeSizeEq (L : Lattice) (m : RegionModel) (p : Point) : Prop :=
  m.subtreeSize p =
    (if m.parent p ≠ 0 then 1 else 0) +
      (L.dirs.map (fun d =>
        if p.translate d ∈ L.points then
          subtreeSizeTerm m (p.translate d) (dirIndex L d.negate)
        else 0)).sum

/-- All constraints the `RegionConstrainer` asserts on its solver
(`_createGrids` plus `_addConstraints`). -/
def RegionSat (L : Lattice) (complete : Bool) (minSize maxSize : Int)
    (m : RegionModel) : Prop :=
  (∀ p ∈ L.points, gridCellConstraints L complete minSize maxSize m p) ∧
  (∀ p ∈ L.points, ∀ d ∈ L.dirs, edgeConstraints L m p d) ∧
  (∀ p ∈ L.points, subtreeSizeEq L m p)

instance regionSatDecidable (L : Lattice) (complete : Bool)
    (minSize maxSize : Int) (m : RegionModel) :
    Decidable (RegionSat L complete minSize maxSize m) := by
  unfold RegionSat gridCellConstraints edgeConstraints constrainSide subtreeSizeEq
  infer_instance

instance latticeWFDecidable (L : Lattice) : Decidable L.WF := by
  unfold Lattice.WF
  infer_instance

/-- Decoding one parent pointer: parent indices ≥ 2 move to the neighbor in
the corresponding edge-sharing direction. -/
def stepO (L : Lattice) (m : RegionModel) (q : Point) : Option Point :=
  if 2 ≤ m.parent q then
    match L.dirs.get? (m.parent q - 2).toNat with
    | some d => some (q.translate d)
    | none => none
  else none

/-- Following parent pointers until a root (`parent = R`) is reached,
with fuel. -/
def followParents (L : Lattice) (m : RegionModel) : Nat → Point → Option Point
  | 0, _ => none
  | fuel + 1, q =>
    if m.parent q = 1 then some q
    else
      match stepO L m q with
      | some q' => followParents L m fuel q'
      | none => none

/-- `reachesIn L m f c q`: the parent chain starting at `c` passes through
`q` within `f` steps. -/
def reachesIn (L : Lattice) (m : RegionModel) : Nat → Point → Point → Bool
  | 0, c, q => c == q
  | f + 1, c, q =>
    c == q ||
      match stepO L m c with
      | some c' => reachesIn L m f c' q
      | none => false

/-- `f`-fold iteration of `stepO`. -/
def stepN (L : Lattice) (m : RegionModel) : Nat → Point → Option Point
  | 0, c => some c
  | k + 1, c =>
    match stepO L m c with
    | some c' => stepN L m k c'
    | none => none

/-- The number of lattice cells with strictly larger subtree size: the
termination measure of the parent chain. -/
def smeas (L : Lattice) (m : RegionModel) (p : Point) : Nat :=
  L.points.countP (fun q => decide (m.subtreeSize p < m.subtreeSize q))

/-- The directions whose in-grid neighbor of `q` points back at `q`
(the child subtrees counted in `q`'s subtree-size sum). -/
def childDirs (L : Lattice) (m : RegionModel) (q : Point) : List Vector :=
  L.dirs.filter (fun e =>
    decide (q.translate e ∈ L.points) &&
      decide (m.parent (q.translate e) = dirIndex L e.negate))

theorem countP_lt_of {α : Type} (P Q : α → Bool) (l : List α)
    (h : ∀ x ∈ l, Q x = true → P x = true) (a : α) (ha : a ∈ l)
    (hPa : P a = true) (hQa : Q a = false) : l.countP Q < l.countP P := by
  induction l with
  | nil => cases ha
  | cons x xs ih =>
    rw [List.countP_cons, List.countP_cons]
    rcases List.mem_cons.1 ha with rfl | hax
    · have hle : xs.countP Q ≤ xs.countP P :=
        List.countP_mono_left (fun y hy => h y (List.mem_cons_of_mem _ hy))
      rw [hQa, hPa]
      show xs.countP Q + 0 < xs.countP P + 1
      omega
    · have hlt := ih (fun y hy hQ => h y (List.mem_cons_of_mem _ hy) hQ) hax
      have hif : (if Q x = true then 1 else 0) ≤ (if P x = true then 1 else 0) := by
        by_cases hQx : Q x = true
        · simp [hQx, h x (List.mem_cons_self _ _) hQx]
        · simp [hQx]
      omega

theorem countP_or_disjoint {α : Type} (l : List α) (p q : α → Bool)
    (h : ∀ x ∈ l, ¬(p x = true ∧ q x = true)) :
    l.countP (fun x => p x || q x) = l.countP p + l.countP q := by
  induction l with
  | nil => rfl
  | cons x xs ih =>
    have hx := h x (List.mem_cons_self x xs)
    have ih' := ih (fun y hy => h y (List.mem_cons_of_mem x hy))
    rw [List.countP_cons, List.countP_cons, List.countP_cons, ih']
    cases hp : p x with
    | true =>
      have hq : q x = false := by
        cases hq : q x
        · rfl
        · exact absurd ⟨hp, hq⟩ hx
      rw [hq]
      show xs.countP p + xs.countP q + 1 = xs.countP p + 1 + (xs.countP q + 0)
      omega
    | false =>
      cases hq : q x with
      | true =>
        show xs.countP p + xs.countP q + 1 = xs.countP p + 0 + (xs.countP q + 1)
        omega
      | false =>
        show xs.countP p + xs.countP q + 0 = xs.countP p + 0 + (xs.countP q + 0)
        omega

theorem countP_any_sum {α β : Type} (l : List α) :
    ∀ (es : List β) (g : β → α → Bool), es.Nodup →
      (∀ e₁ ∈ es, ∀ e₂ ∈ es, e₁ ≠ e₂ → ∀ x ∈ l,
        ¬(g e₁ x = true ∧ g e₂ x = true)) →
      l.countP (fun x => es.any (fun e => g e x)) =
        (es.map (fun e => l.countP (g e))).sum := by
  intro es
  induction es with
  | nil => intro g _ _; simp
  | cons e es' ih =>
    intro g hnd hdisj
    have hdisj' : ∀ x ∈ l,
        ¬(g e x = true ∧ (es'.any (fun e' => g e' x)) = true) := by
      rintro x hx ⟨hge, hany⟩
      obtain ⟨e', he', hge'⟩ := List.any_eq_true.1 hany
      have hne : e ≠ e' := by
        rintro rfl
        exact (List.nodup_cons.1 hnd).1 he'
      exact hdisj e (List.mem_cons_self e es') e' (List.mem_cons_of_mem e he')
        hne x hx ⟨hge, hge'⟩
    calc l.countP (fun x => (e :: es').any (fun e' => g e' x))
        = l.countP (fun x => g e x || es'.any (fun e' => g e' x)) := by
          refine List.countP_congr ?_
          intro x _
          simp [List.any_cons]
      _ = l.countP (g e) + l.countP (fun x => es'.any (fun e' => g e' x)) :=
          countP_or_disjoint l _ _ hdisj'
      _ = l.countP (g e) + (es'.map (fun e' => l.countP (g e'))).sum := by
          rw [ih g (List.nodup_cons.1 hnd).2 (fun e₁ h₁ e₂ h₂ hne x hx =>
            hdisj e₁ (List.mem_cons_of_mem e h₁) e₂ (List.mem_cons_of_mem e h₂)
              hne x hx)]
      _ = ((e :: es').map (fun e' => l.countP (g e'))).sum := by
          simp [List.map_cons]

theorem sum_map_ite {α : Type} (l : List α) (c : α → Bool) (g : α → Int) :
    (l.map (fun x => if c x = true then g x else 0)).sum =
      ((l.filter c).map g).sum := by
  induction l with
  | nil => rfl
  | cons x xs ih =>
    cases hx : c x with
    | true => simp [List.filter_cons, hx, ih]
    | false => simp [List.filter_cons, hx, ih]

theorem int_cast_list_sum (l : List Nat) :
    ((l.sum : Nat) : Int) = (l.map (fun n : Nat => (n : Int))).sum := by
  induction l with
  | nil => rfl
  | cons x xs ih => simp [ih]

theorem gridCell_complete (L : Lattice) (minSize maxSize : Int)
    (m : RegionModel) (p : Point)
    (h : gridCellConstraints L true minSize maxSize m p) :
    1 ≤ m.parent p ∧ m.parent p < 2 + (L.dirs.length : Int) ∧
      1 ≤ m.subtreeSize p ∧
      (m.parent p = 1 → m.regionId p = L.pointToIndex p) ∧
      (m.parent p = 1 → m.regionSize p = m.subtreeSize p) := by
  obtain ⟨h1, h2, h3, _, _, _, _, h8, _, _, _, h12⟩ := h
  exact ⟨by simpa using h1, h2, by simpa using h3, h8, h12⟩

theorem stepO_le (L : Lattice) (m : RegionModel) (c c' : Point)
    (h : stepO L m c = some c') : 2 ≤ m.parent c := by
  by_contra hc
  unfold stepO at h
  rw [if_neg hc] at h
  cases h

/-- The step lemma: a non-root cell's parent pointer leads to an in-grid
cell with the same region data and strictly larger subtree size. -/
theorem region_step (L : Lattice) (minSize maxSize : Int) (m : RegionModel)
    (hWF : L.WF) (hSat : RegionSat L true minSize maxSize m)
    (p : Point) (hp : p ∈ L.points) (h2 : 2 ≤ m.parent p) :
    ∃ p', stepO L m p = some p' ∧ p' ∈ L.points ∧
      m.regionId p' = m.regionId p ∧ m.regionSize p' = m.regionSize p ∧
      m.subtreeSize p < m.subtreeSize p' := by
  obtain ⟨hGrid, hEdge, hSub⟩ := hSat
  have hbound := (gridCell_complete L minSize maxSize m p (hGrid p hp)).2.1
  have hi : (m.parent p - 2).toNat < L.dirs.length := by omega
  set i := (m.parent p - 2).toNat with hidef
  set d := L.dirs.get ⟨i, hi⟩ with hddef
  have hdmem : d ∈ L.dirs := List.get_mem _ _ _
  have hlt : L.dirs.indexOf d < L.dirs.length := List.indexOf_lt_length.2 hdmem
  have hidx : L.dirs.indexOf d = i :=
    congrArg Fin.val (hWF.2.1.get_inj_iff.1
      (show L.dirs.get ⟨L.dirs.indexOf d, hlt⟩ = L.dirs.get ⟨i, hi⟩ from
        (List.indexOf_get hlt).trans hddef))
  have hpar : m.parent p = dirIndex L d := by
    unfold dirIndex
    rw [hidx]
    omega
  have hstep : stepO L m p = some (p.translate d) := by
    unfold stepO
    rw [if_pos h2, ← hidef, List.get?_eq_get hi, ← hddef]
  have hmem : p.translate d ∈ L.points := by
    by_contra hnot
    have he := hEdge p hp d hdmem
    unfold edgeConstraints at he
    rw [if_neg hnot] at he
    exact he hpar
  have hnegmem : d.negate ∈ L.dirs := hWF.2.2 d hdmem
  have he2 := hEdge (p.translate d) hmem d.negate hnegmem
  unfold edgeConstraints at he2
  rw [Point.translate_negate, if_pos hp, Vector.negate_negate] at he2
  obtain ⟨hids, hsizes⟩ := he2.2 hpar
  refine ⟨p.translate d, hstep, hmem, hids, hsizes, ?_⟩
  have hs := hSub (p.translate d) hmem
  unfold subtreeSizeEq at hs
  have hpar1 : 1 ≤ m.parent (p.translate d) :=
    (gridCell_complete L minSize maxSize m _ (hGrid _ hmem)).1
  rw [if_pos (by omega : m.parent (p.translate d) ≠ 0)] at hs
  have hself : m.subtreeSize p ∈
      (L.dirs.map (fun e =>
        if (p.translate d).translate e ∈ L.points then
          subtreeSizeTerm m ((p.translate d).translate e) (dirIndex L e.negate)
        else 0)) := by
    have hval : (fun e =>
        if (p.translate d).translate e ∈ L.points then
          subtreeSizeTerm m ((p.translate d).translate e) (dirIndex L e.negate)
        else 0) d.negate = m.subtreeSize p := by
      show (if (p.translate d).translate d.negate ∈ L.points then
          subtreeSizeTerm m ((p.translate d).translate d.negate)
            (dirIndex L d.negate.negate)
        else 0) = m.subtreeSize p
      rw [Point.translate_negate, if_pos hp, Vector.negate_negate]
      unfold subtreeSizeTerm
      rw [if_pos hpar]
    exact hval ▸ List.mem_map_of_mem _ hnegmem
  have hnonneg : ∀ x ∈
      (L.dirs.map (fun e =>
        if (p.translate d).translate e ∈ L.points then
          subtreeSizeTerm m ((p.translate d).translate e) (dirIndex L e.negate)
        else 0)), (0 : Int) ≤ x := by
    intro x hx
    obtain ⟨e, _, rfl⟩ := List.mem_map.1 hx
    by_cases hmem' : (p.translate d).translate e ∈ L.points
    · rw [if_pos hmem']
      unfold subtreeSizeTerm
      by_cases hpe : m.parent ((p.translate d).translate e) = dirIndex L e.negate
      · rw [if_pos hpe]
        have := (gridCell_complete L minSize maxSize m _ (hGrid _ hmem')).2.2.1
        omega
      · rw [if_neg hpe]
    · rw [if_neg hmem']
  have hle := List.single_le_sum hnonneg _ hself
  omega

/-- A strict subtree-size increase strictly shrinks the measure. -/
theorem region_smeas_lt (L : Lattice) (m : RegionModel) {p p' : Point}
    (hp' : p' ∈ L.points) (h : m.subtreeSize p < m.subtreeSize p') :
    smeas L m p' < smeas L m p := by
  unfold smeas
  refine countP_lt_of _ _ _ ?_ p' hp' ?_ ?_
  · intro x _ hQ
    simp only [decide_eq_true_eq] at hQ ⊢
    omega
  · simp only [decide_eq_true_eq]
    exact h
  · simp only [decide_eq_false_iff_not]
    omega

/-- Every in-grid cell reaches a root within `smeas`-bounded fuel, and the
region id and region size are constant along the way. -/
theorem region_followParents_root (L : Lattice) (minSize maxSize : Int)
    (m : RegionModel) (hWF : L.WF) (hSat : RegionSat L true minSize maxSize m) :
    ∀ (fuel : Nat) (p : Point), p ∈ L.points → smeas L m p < fuel →
      ∃ r, followParents L m fuel p = some r ∧ r ∈ L.points ∧
        m.parent r = 1 ∧ m.regionId r = m.regionId p ∧
        m.regionSize r = m.regionSize p := by
  intro fuel
  induction fuel with
  | zero => intro p _ h; omega
  | succ f ih =>
    intro p hp hf
    by_cases hroot : m.parent p = 1
    · exact ⟨p, by rw [followParents, if_pos hroot], hp, hroot, rfl, rfl⟩
    · have h1 : 1 ≤ m.parent p :=
        (gridCell_complete L minSize maxSize m p (hSat.1 p hp)).1
      have h2 : 2 ≤ m.parent p := by omega
      obtain ⟨p', hstep, hp', hrid, hrs, hss⟩ :=
        region_step L minSize maxSize m hWF hSat p hp h2
      have hm : smeas L m p' < f := by
        have := region_smeas_lt L m hp' hss
        omega
      obtain ⟨r, hfr, hr, hroot', hrid', hrs'⟩ := ih p' hp' hm
      refine ⟨r, ?_, hr, hroot', hrid'.trans hrid, hrs'.trans hrs⟩
      rw [followParents, if_neg hroot, hstep]
      exact hfr

theorem reachesIn_refl (L : Lattice) (m : RegionModel) :
    ∀ (f : Nat) (c : Point), reachesIn L m f c c = true := by
  intro f c
  cases f with
  | zero => simp [reachesIn]
  | succ f => simp [reachesIn]

theorem reachesIn_mono (L : Lattice) (m : RegionModel) :
    ∀ (f f' : Nat) (c q : Point), f ≤ f' → reachesIn L m f c q = true →
      reachesIn L m f' c q = true := by
  intro f
  induction f with
  | zero =>
    intro f' c q _ h
    simp only [reachesIn, beq_iff_eq] at h
    subst h
    exact reachesIn_refl L m f' c
  | succ f ih =>
    intro f' c q hle h
    rw [reachesIn, Bool.or_eq_true] at h
    rcases h with h | h
    · rw [beq_iff_eq] at h
      subst h
      exact reachesIn_refl L m f' c
    · obtain ⟨f'', rfl⟩ : ∃ g, f' = g + 1 := ⟨f' - 1, by omega⟩
      cases hs : stepO L m c with
      | none => rw [hs] at h; cases h
      | some c' =>
        rw [hs] at h
        rw [reachesIn, hs, Bool.or_eq_true]
        exact Or.inr (ih f'' c' q (by omega) h)

theorem reachesIn_comp (L : Lattice) (m : RegionModel) :
    ∀ (f : Nat) (c ch q : Point), stepO L m ch = some q →
      reachesIn L m f c ch = true → reachesIn L m (f + 1) c q = true := by
  intro f
  induction f with
  | zero =>
    intro c ch q hst h
    simp only [reachesIn, beq_iff_eq] at h
    subst h
    rw [reachesIn, hst, Bool.or_eq_true]
    exact Or.inr (reachesIn_refl L m 0 q)
  | succ f ih =>
    intro c ch q hst h
    rw [reachesIn, Bool.or_eq_true] at h
    rcases h with h | h
    · rw [beq_iff_eq] at h
      subst h
      rw [reachesIn, hst, Bool.or_eq_true]
      exact Or.inr (reachesIn_refl L m (f + 1) q)
    · cases hs : stepO L m c with
      | none => rw [hs] at h; cases h
      | some c' =>
        rw [hs] at h
        rw [reachesIn, hs, Bool.or_eq_true]
        exact Or.inr (ih c' ch q hst h)

theorem reachesIn_des (L : Lattice) (m : RegionModel) :
    ∀ (f : Nat) (c q : Point), reachesIn L m (f + 1) c q = true → c ≠ q →
      ∃ ch, stepO L m ch = some q ∧ reachesIn L m f c ch = true := by
  intro f
  induction f with
  | zero =>
    intro c q h hne
    rw [reachesIn, Bool.or_eq_true] at h
    rcases h with h | h
    · exact absurd (beq_iff_eq.1 h) hne
    · cases hs : stepO L m c with
      | none => rw [hs] at h; cases h
      | some c' =>
        rw [hs] at h
        simp only [reachesIn, beq_iff_eq] at h
        subst h
        exact ⟨c, hs, reachesIn_refl L m 0 c⟩
  | succ f ih =>
    intro c q h hne
    rw [reachesIn, Bool.or_eq_true] at h
    rcases h with h | h
    · exact absurd (beq_iff_eq.1 h) hne
    · cases hs : stepO L m c with
      | none => rw [hs] at h; cases h
      | some c' =>
        rw [hs] at h
        by_cases hc' : c' = q
        · subst hc'
          exact ⟨c, hs, reachesIn_refl L m (f + 1) c⟩
        · obtain ⟨ch, hch, hr⟩ := ih c' q h hc'
          refine ⟨ch, hch, ?_⟩
          rw [reachesIn, hs, Bool.or_eq_true]
          exact Or.inr hr

/-- Along a parent chain the cells stay in the grid, the subtree size is
monotone, and the region data is constant. -/
theorem reachesIn_mem_le (L : Lattice) (minSize maxSize : Int)
    (m : RegionModel) (hWF : L.WF) (hSat : RegionSat L true minSize maxSize m) :
    ∀ (f : Nat) (c q : Point), c ∈ L.points → reachesIn L m f c q = true →
      q ∈ L.points ∧ m.subtreeSize c ≤ m.subtreeSize q ∧
        m.regionId q = m.regionId c ∧ m.regionSize q = m.regionSize c := by
  intro f
  induction f with
  | zero =>
    intro c q hc h
    simp only [reachesIn, beq_iff_eq] at h
    subst h
    exact ⟨hc, le_refl _, rfl, rfl⟩
  | succ f ih =>
    intro c q hc h
    rw [reachesIn, Bool.or_eq_true] at h
    rcases h with h | h
    · rw [beq_iff_eq] at h
      subst h
      exact ⟨hc, le_refl _, rfl, rfl⟩
    · cases hs : stepO L m c with
      | none => rw [hs] at h; cases h
      | some c' =>
        rw [hs] at h
        obtain ⟨p', hstep, hp', hrid, hrs, hss⟩ :=
          region_step L minSize maxSize m hWF hSat c hc (stepO_le L m c c' hs)
        rw [hstep] at hs
        injection hs with hs
        subst hs
        obtain ⟨hq, hle, hid, hsz⟩ := ih p' q hp' h
        exact ⟨hq, by omega, hid.trans hrid, hsz.trans hrs⟩

/-- Any reachability fact holds already with `smeas`-bounded fuel. -/
theorem reachesIn_canon (L : Lattice) (minSize maxSize : Int)
    (m : RegionModel) (hWF : L.WF) (hSat : RegionSat L true minSize maxSize m) :
    ∀ (f : Nat) (c x : Point), c ∈ L.points → reachesIn L m f c x = true →
      reachesIn L m (smeas L m c) c x = true := by
  intro f
  induction f with
  | zero =>
    intro c x _ h
    simp only [reachesIn, beq_iff_eq] at h
    subst h
    exact reachesIn_refl L m _ c
  | succ f ih =>
    intro c x hc h
    rw [reachesIn, Bool.or_eq_true] at h
    rcases h with h | h
    · rw [beq_iff_eq] at h
      subst h
      exact reachesIn_refl L m _ c
    · cases hs : stepO L m c with
      | none => rw [hs] at h; cases h
      | some c' =>
        rw [hs] at h
        obtain ⟨p', hstep, hp', _, _, hss⟩ :=
          region_step L minSize maxSize m hWF hSat c hc (stepO_le L m c c' hs)
        rw [hstep] at hs
        injection hs with hs
        subst hs
        have hlt := region_smeas_lt L m hp' hss
        have hcanon := ih p' x hp' h
        obtain ⟨g, hg⟩ : ∃ g, smeas L m c = g + 1 := ⟨smeas L m c - 1, by omega⟩
        rw [hg, reachesIn, hstep, Bool.or_eq_true]
        exact Or.inr (reachesIn_mono L m (smeas L m p') g p' x (by omega) hcanon)

theorem reachesIn_followParents (L : Lattice) (m : RegionModel) :
    ∀ (f : Nat) (c r : Point), m.parent r = 1 → reachesIn L m f c r = true →
      followParents L m (f + 1) c = some r := by
  intro f
  induction f with
  | zero =>
    intro c r hr h
    simp only [reachesIn, beq_iff_eq] at h
    subst h
    rw [followParents, if_pos hr]
  | succ f ih =>
    intro c r hr h
    rw [reachesIn, Bool.or_eq_true] at h
    rcases h with h | h
    · rw [beq_iff_eq] at h
      subst h
      rw [followParents, if_pos hr]
    · cases hs : stepO L m c with
      | none => rw [hs] at h; cases h
      | some c' =>
        rw [hs] at h
        have hc1 : m.parent c ≠ 1 := by
          intro hc1
          have := stepO_le L m c c' hs
          omega
        rw [followParents, if_neg hc1, hs]
        exact ih c' r hr h

theorem followParents_reachesIn (L : Lattice) (m : RegionModel) :
    ∀ (f : Nat) (c r : Point), followParents L m f c = some r →
      reachesIn L m f c r = true := by
  intro f
  induction f with
  | zero => intro c r h; cases h
  | succ f ih =>
    intro c r h
    rw [followParents] at h
    by_cases hroot : m.parent c = 1
    · rw [if_pos hroot] at h
      injection h with h
      subst h
      exact reachesIn_refl L m _ c
    · rw [if_neg hroot] at h
      cases hs : stepO L m c with
      | none => rw [hs] at h; cases h
      | some c' =>
        rw [hs] at h
        rw [reachesIn, hs, Bool.or_eq_true]
        exact Or.inr (ih c' r h)

theorem stepN_add (L : Lattice) (m : RegionModel) :
    ∀ (a b : Nat) (c : Point), stepN L m (a + b) c =
      match stepN L m a c with
      | some x => stepN L m b x
      | none => none := by
  intro a
  induction a with
  | zero =>
    intro b c
    rw [Nat.zero_add]
    rfl
  | succ a ih =>
    intro b c
    have hsum : a + 1 + b = (a + b) + 1 := by omega
    rw [hsum, stepN, stepN]
    cases hs : stepO L m c with
    | none => rfl
    | some c' => exact ih b c'

theorem reachesIn_iff_stepN (L : Lattice) (m : RegionModel) :
    ∀ (f : Nat) (c x : Point), reachesIn L m f c x = true ↔
      ∃ k, k ≤ f ∧ stepN L m k c = some x := by
  intro f
  induction f with
  | zero =>
    intro c x
    simp only [reachesIn, beq_iff_eq]
    constructor
    · intro h
      subst h
      exact ⟨0, le_refl _, rfl⟩
    · rintro ⟨k, hk, hs⟩
      have hk0 : k = 0 := by omega
      subst hk0
      exact Option.some.inj hs
  | succ f ih =>
    intro c x
    rw [reachesIn, Bool.or_eq_true]
    constructor
    · intro h
      rcases h with h | h
      · refine ⟨0, by omega, ?_⟩
        rw [beq_iff_eq] at h
        subst h
        rfl
      · cases hs : stepO L m c with
        | none => rw [hs] at h; cases h
        | some c' =>
          rw [hs] at h
          obtain ⟨k, hk, hsk⟩ := (ih c' x).1 h
          refine ⟨k + 1, by omega, ?_⟩
          rw [stepN, hs]
          exact hsk
    · rintro ⟨k, hk, hs⟩
      cases k with
      | zero =>
        injection hs with hs
        exact Or.inl (by rw [hs]; exact beq_self_eq_true x)
      | succ k =>
        rw [stepN] at hs
        cases hst : stepO L m c with
        | none => rw [hst] at hs; cases hs
        | some c' =>
          rw [hst] at hs
          exact Or.inr ((ih c' x).2 ⟨k, by omega, hs⟩)

/-- Two cells that both step directly to `q` and lie on the same
deterministic parent chain must coincide. -/
theorem region_child_unique (L : Lattice) (minSize maxSize : Int)
    (m : RegionModel) (hWF : L.WF) (hSat : RegionSat L true minSize maxSize m)
    (q : Point) (hq : q ∈ L.points) (x y c : Point)
    (hsx : stepO L m x = some q)
    (hssy : m.subtreeSize y < m.subtreeSize q)
    (k1 k2 : Nat) (h12 : k1 ≤ k2)
    (h1 : stepN L m k1 c = some x) (h2 : stepN L m k2 c = some y) : x = y := by
  obtain ⟨j, rfl⟩ := Nat.exists_eq_add_of_le h12
  rw [stepN_add, h1] at h2
  have h2' : stepN L m j x = some y := h2
  cases j with
  | zero => exact Option.some.inj h2'
  | succ j =>
    exfalso
    rw [stepN, hsx] at h2'
    have h2'' : stepN L m j q = some y := h2'
    have hreach : reachesIn L m j q y = true :=
      (reachesIn_iff_stepN L m j q y).2 ⟨j, le_refl _, h2''⟩
    have := (reachesIn_mem_le L minSize maxSize m hWF hSat j q y hq hreach).2.1
    omega

/-- Properties of each child direction of `q`: the neighbor is in the grid,
its parent pointer steps back to `q`, and its subtree is strictly
smaller. -/
theorem childDirs_spec (L : Lattice) (minSize maxSize : Int) (m : RegionModel)
    (hWF : L.WF) (hSat : RegionSat L true minSize maxSize m)
    (q : Point) (e : Vector) (he : e ∈ childDirs L m q) :
    q.translate e ∈ L.points ∧ stepO L m (q.translate e) = some q ∧
      m.subtreeSize (q.translate e) < m.subtreeSize q := by
  simp only [childDirs, List.mem_filter, Bool.and_eq_true, decide_eq_true_eq] at he
  obtain ⟨hedir, hmem, hpar⟩ := he
  have hnegmem : e.negate ∈ L.dirs := hWF.2.2 e hedir
  have hlt : L.dirs.indexOf e.negate < L.dirs.length :=
    List.indexOf_lt_length.2 hnegmem
  have hstep : stepO L m (q.translate e) = some q := by
    unfold stepO
    rw [if_pos (by unfold dirIndex at hpar; omega)]
    have htn : (m.parent (q.translate e) - 2).toNat = L.dirs.indexOf e.negate := by
      unfold dirIndex at hpar
      omega
    rw [htn, List.get?_eq_get hlt, List.indexOf_get hlt]
    show some ((q.translate e).translate e.negate) = some q
    rw [Point.translate_negate]
  obtain ⟨p', hstep', hp', _, _, hss⟩ :=
    region_step L minSize maxSize m hWF hSat (q.translate e) hmem
      (stepO_le L m _ _ hstep)
  rw [hstep'] at hstep
  have hq' : p' = q := Option.some.inj hstep
  rw [hq'] at hstep' hss
  exact ⟨hmem, hstep', hss⟩

/-- The subtree-size sum collapses to a sum over the child directions. -/
theorem subtree_sum_children (L : Lattice) (m : RegionModel) (q : Point) :
    (L.dirs.map (fun d =>
      if q.translate d ∈ L.points then
        subtreeSizeTerm m (q.translate d) (dirIndex L d.negate)
      else 0)).sum =
    ((childDirs L m q).map (fun e => m.subtreeSize (q.translate e))).sum := by
  unfold childDirs
  rw [← sum_map_ite L.dirs
    (fun e => decide (q.translate e ∈ L.points) &&
      decide (m.parent (q.translate e) = dirIndex L e.negate))
    (fun e => m.subtreeSize (q.translate e))]
  refine congrArg List.sum (List.map_congr_left ?_)
  intro d _
  unfold subtreeSizeTerm
  by_cases h1 : q.translate d ∈ L.points
  · by_cases h2 : m.parent (q.translate d) = dirIndex L d.negate
    · simp [h1, h2]
    · simp [h1, h2]
  · simp [h1]

/-- The counting lemma: each cell's subtree size equals the number of grid
cells whose parent chain passes through it. -/
theorem region_subtree_count (L : Lattice) (minSize maxSize : Int)
    (m : RegionModel) (hWF : L.WF) (hSat : RegionSat L true minSize maxSize m) :
    ∀ (n : Nat) (q : Point), (m.subtreeSize q).toNat ≤ n → q ∈ L.points →
      m.subtreeSize q =
        (L.points.countP
          (fun c => reachesIn L m (L.points.length + 1) c q) : Int) := by
  intro n
  induction n with
  | zero =>
    intro q hn hq
    have := (gridCell_complete L minSize maxSize m q (hSat.1 q hq)).2.2.1
    omega
  | succ n ih =>
    intro q hn hq
    have hq1 : 1 ≤ m.parent q :=
      (gridCell_complete L minSize maxSize m q (hSat.1 q hq)).1
    have hsub := hSat.2.2 q hq
    unfold subtreeSizeEq at hsub
    rw [if_pos (by omega : m.parent q ≠ 0), subtree_sum_children L m q] at hsub
    have hchild := fun e he => childDirs_spec L minSize maxSize m hWF hSat q e he
    have hih : ∀ e ∈ childDirs L m q,
        m.subtreeSize (q.translate e) =
          (L.points.countP
            (fun c => reachesIn L m (L.points.length + 1) c (q.translate e)) : Int) := by
      intro e he
      obtain ⟨hmem, _, hss⟩ := hchild e he
      have h1 : 1 ≤ m.subtreeSize (q.translate e) :=
        (gridCell_complete L minSize maxSize m _ (hSat.1 _ hmem)).2.2.1
      exact ih (q.translate e) (by omega) hmem
    have hpt : ∀ c ∈ L.points,
        (reachesIn L m (L.points.length + 1) c q = true) ↔
        ((c == q ||
          (childDirs L m q).any
            (fun e => reachesIn L m (L.points.length + 1) c (q.translate e))) = true) := by
      intro c hc
      constructor
      · intro h
        by_cases hcq : c = q
        · subst hcq
          rw [Bool.or_eq_true, beq_iff_eq]
          exact Or.inl rfl
        · obtain ⟨ch, hch, hr⟩ := reachesIn_des L m (L.points.length) c q h hcq
          have hchmem : ch ∈ L.points :=
            (reachesIn_mem_le L minSize maxSize m hWF hSat _ c ch hc hr).1
          have h2 := stepO_le L m ch q hch
          have hbound :=
            (gridCell_complete L minSize maxSize m ch (hSat.1 ch hchmem)).2.1
          have hi : (m.parent ch - 2).toNat < L.dirs.length := by omega
          have hget : L.dirs.get? (m.parent ch - 2).toNat =
              some (L.dirs.get ⟨(m.parent ch - 2).toNat, hi⟩) :=
            List.get?_eq_get hi
          have hq' : q = ch.translate (L.dirs.get ⟨(m.parent ch - 2).toNat, hi⟩) := by
            unfold stepO at hch
            rw [if_pos h2, hget] at hch
            have hch' : some (ch.translate
                (L.dirs.get ⟨(m.parent ch - 2).toNat, hi⟩)) = some q := hch
            exact (Option.some.inj hch').symm
          set d := L.dirs.get ⟨(m.parent ch - 2).toNat, hi⟩ with hddef
          have hdmem : d ∈ L.dirs := List.get_mem _ _ _
          have hdlt : L.dirs.indexOf d < L.dirs.length :=
            List.indexOf_lt_length.2 hdmem
          have hidx : L.dirs.indexOf d = (m.parent ch - 2).toNat :=
            congrArg Fin.val (hWF.2.1.get_inj_iff.1
              (show L.dirs.get ⟨L.dirs.indexOf d, hdlt⟩ =
                L.dirs.get ⟨(m.parent ch - 2).toNat, hi⟩ from
                (List.indexOf_get hdlt).trans hddef))
          have hchq : q.translate d.negate = ch := by
            rw [hq', Point.translate_negate]
          have hechild : d.negate ∈ childDirs L m q := by
            simp only [childDirs, List.mem_filter, Bool.and_eq_true,
              decide_eq_true_eq]
            refine ⟨hWF.2.2 d hdmem, ?_, ?_⟩
            · rw [hchq]
              exact hchmem
            · rw [hchq, Vector.negate_negate]
              unfold dirIndex
              rw [hidx]
              omega
          rw [Bool.or_eq_true]
          refine Or.inr (List.any_eq_true.2 ⟨d.negate, hechild, ?_⟩)
          rw [hchq]
          exact reachesIn_mono L m _ _ c ch (by omega) hr
      · intro h
        rw [Bool.or_eq_true] at h
        rcases h with h | h
        · rw [beq_iff_eq] at h
          subst h
          exact reachesIn_refl L m _ c
        · obtain ⟨e, he, hr⟩ := List.any_eq_true.1 h
          obtain ⟨_, hstep, _⟩ := hchild e he
          have hcanon :=
            reachesIn_canon L minSize maxSize m hWF hSat _ c (q.translate e) hc hr
          have hsm : smeas L m c ≤ L.points.length := List.countP_le_length _
          have hr' : reachesIn L m L.points.length c (q.translate e) = true :=
            reachesIn_mono L m _ _ _ _ hsm hcanon
          exact reachesIn_comp L m _ c (q.translate e) q hstep hr'
    have hcongr : L.points.countP
        (fun c => reachesIn L m (L.points.length + 1) c q) =
        L.points.countP (fun c => c == q ||
          (childDirs L m q).any
            (fun e => reachesIn L m (L.points.length + 1) c (q.translate e))) :=
      List.countP_congr (fun c hc => hpt c hc)
    have hdisj1 : ∀ c ∈ L.points, ¬((c == q) = true ∧
        ((childDirs L m q).any
          (fun e => reachesIn L m (L.points.length + 1) c (q.translate e))) = true) := by
      rintro c hc ⟨hcq, hany⟩
      rw [beq_iff_eq] at hcq
      obtain ⟨e, he, hr⟩ := List.any_eq_true.1 hany
      obtain ⟨_, _, hss⟩ := hchild e he
      rw [hcq] at hr
      have := (reachesIn_mem_le L minSize maxSize m hWF hSat _ q
        (q.translate e) hq hr).2.1
      omega
    have hnodup : (childDirs L m q).Nodup := hWF.2.1.filter _
    have hdisj2 : ∀ e₁ ∈ childDirs L m q, ∀ e₂ ∈ childDirs L m q, e₁ ≠ e₂ →
        ∀ c ∈ L.points,
          ¬((fun e c => reachesIn L m (L.points.length + 1) c (q.translate e)) e₁ c = true ∧
            (fun e c => reachesIn L m (L.points.length + 1) c (q.translate e)) e₂ c = true) := by
      rintro e₁ he₁ e₂ he₂ hne c hc ⟨h₁, h₂⟩
      obtain ⟨hm₁, hs₁, hss₁⟩ := hchild e₁ he₁
      obtain ⟨hm₂, hs₂, hss₂⟩ := hchild e₂ he₂
      obtain ⟨k₁, _, hk₁⟩ := (reachesIn_iff_stepN L m _ c (q.translate e₁)).1 h₁
      obtain ⟨k₂, _, hk₂⟩ := (reachesIn_iff_stepN L m _ c (q.translate e₂)).1 h₂
      have hxy : q.translate e₁ ≠ q.translate e₂ := by
        intro hxy
        exact hne (Point.translate_injective q hxy)
      rcases Nat.le_total k₁ k₂ with hle | hle
      · exact hxy (region_child_unique L minSize maxSize m hWF hSat q hq
          _ _ c hs₁ hss₂ k₁ k₂ hle hk₁ hk₂)
      · exact hxy ((region_child_unique L minSize maxSize m hWF hSat q hq
          _ _ c hs₂ hss₁ k₂ k₁ hle hk₂ hk₁).symm)
    have hone : L.points.countP (fun c => c == q) = 1 :=
      List.count_eq_one_of_mem hWF.1 hq
    rw [hsub, hcongr, countP_or_disjoint L.points _ _ hdisj1,
      countP_any_sum L.points (childDirs L m q)
        (fun e c => reachesIn L m (L.points.length + 1) c (q.translate e))
        hnodup hdisj2,
      hone, Nat.cast_add, Nat.cast_one, int_cast_list_sum]
    congr 1
    rw [List.map_map]
    refine congrArg List.sum (List.map_congr_left ?_)
    intro e he
    exact hih e he

/-- C1: in every satisfying model of a `complete=true` `RegionConstrainer`,
every cell's parent chain ends at a root whose lattice point index is the
cell's `regionId`, and the cell's `regionSize` equals the number of cells
carrying that same `regionId`. -/
theorem regionConstrainer_root_id_and_size (L : Lattice) (minSize maxSize : Int)
    (m : RegionModel) (hWF : L.WF)
    (hSat : RegionSat L true minSize maxSize m) :
    ∀ p ∈ L.points, ∃ r, followParents L m (L.points.length + 1) p = some r ∧
      r ∈ L.points ∧ m.parent r = 1 ∧ m.regionId p = L.pointToIndex r ∧
      m.regionSize p =
        (L.points.countP (fun q => m.regionId q == m.regionId p) : Int) := by
  intro p hp
  have hsm : smeas L m p < L.points.length + 1 :=
    Nat.lt_succ_of_le (List.countP_le_length _)
  obtain ⟨r, hfr, hrmem, hroot, hrid, hrs⟩ :=
    region_followParents_root L minSize maxSize m hWF hSat
      (L.points.length + 1) p hp hsm
  have hrc := gridCell_complete L minSize maxSize m r (hSat.1 r hrmem)
  have hridx : m.regionId r = L.pointToIndex r := hrc.2.2.2.1 hroot
  have hrss : m.regionSize r = m.subtreeSize r := hrc.2.2.2.2 hroot
  refine ⟨r, hfr, hrmem, hroot, by rw [← hrid, hridx], ?_⟩
  have hcount := region_subtree_count L minSize maxSize m hWF hSat
    (m.subtreeSize r).toNat r (le_refl _) hrmem
  have hpred : ∀ q ∈ L.points,
      (reachesIn L m (L.points.length + 1) q r = true) ↔
        ((m.regionId q == m.regionId p) = true) := by
    intro q hq
    constructor
    · intro h
      have hidq := (reachesIn_mem_le L minSize maxSize m hWF hSat _ q r hq h).2.2.1
      rw [beq_iff_eq, ← hidq, hrid]
    · intro h
      rw [beq_iff_eq] at h
      have hsq : smeas L m q < L.points.length + 1 :=
        Nat.lt_succ_of_le (List.countP_le_length _)
      obtain ⟨r', hfr', hr'mem, hroot', hrid', _⟩ :=
        region_followParents_root L minSize maxSize m hWF hSat
          (L.points.length + 1) q hq hsq
      have hr'c := gridCell_complete L minSize maxSize m r' (hSat.1 r' hr'mem)
      have hridx' : m.regionId r' = L.pointToIndex r' := hr'c.2.2.2.1 hroot'
      have hrr : r' = r := by
        have hIdx : L.pointToIndex r' = L.pointToIndex r := by
          rw [← hridx', ← hridx, hrid', h, ← hrid]
        unfold Lattice.pointToIndex at hIdx
        have hN : L.points.indexOf r' = L.points.indexOf r := by omega
        have hlt' : L.points.indexOf r' < L.points.length :=
          List.indexOf_lt_length.2 hr'mem
        have hlt : L.points.indexOf r < L.points.length :=
          List.indexOf_lt_length.2 hrmem
        calc r' = L.points.get ⟨L.points.indexOf r', hlt'⟩ :=
              (List.indexOf_get hlt').symm
          _ = L.points.get ⟨L.points.indexOf r, hlt⟩ := by
              congr 1
              exact Fin.ext hN
          _ = r := List.indexOf_get hlt
      rw [hrr] at hfr'
      exact followParents_reachesIn L m _ q r hfr'
  have hcongr2 : L.points.countP
      (fun c => reachesIn L m (L.points.length + 1) c r) =
      L.points.countP (fun q => m.regionId q == m.regionId p) :=
    List.countP_congr (fun q hq => hpred q hq)
  rw [← hrs, hrss, hcount, hcongr2]

/-- A two-cell rectangular lattice (the C1 witness instance). -/
def lat2 : Lattice :=
  ⟨[⟨0, 0⟩, ⟨0, 1⟩], [⟨-1, 0⟩, ⟨1, 0⟩, ⟨0, 1⟩, ⟨0, -1⟩]⟩

/-- A satisfying assignment on `lat2`: one region of size 2 rooted at
(0,0), the east cell's parent pointer being W (index 5). -/
def regModel2 : RegionModel :=
  ⟨fun p => if p = ⟨0, 1⟩ then 5 else 1,
   fun p => if p = ⟨0, 1⟩ then 1 else 2,
   fun _ => 0,
   fun _ => 2⟩

/-- Witness for C1: the hypotheses hold on `lat2`/`regModel2` and the
theorem produces the root and the region size there. -/
theorem regionConstrainer_root_id_and_size_witness :
    lat2.WF ∧ RegionSat lat2 true 1 2 regModel2 ∧
      ((⟨0, 1⟩ : Point) ∈ lat2.points ∧
        ∃ r, followParents lat2 regModel2 (lat2.points.length + 1) ⟨0, 1⟩ = some r ∧
          r ∈ lat2.points ∧ regModel2.parent r = 1 ∧
          regModel2.regionId ⟨0, 1⟩ = lat2.pointToIndex r ∧
          regModel2.regionSize ⟨0, 1⟩ =
            (lat2.points.countP
              (fun q => regModel2.regionId q == regModel2.regionId ⟨0, 1⟩) : Int)) :=
  ⟨by decide, by decide, by decide,
    regionConstrainer_root_id_and_size lat2 1 2 regModel2 (by decide) (by decide)
      ⟨0, 1⟩ (by decide)⟩

end Grilops
